import Mathlib

/-!
# Verification of `miratope-core/src/conc/faceting.rs`

This file is a shallow embedding, in Lean 4, of the faceting core of
miratope-rs (`src/miratope-core/src/conc/faceting.rs`), together with
theorems settling the frozen claims about it.

Conventions used throughout:

* Rust `usize` values are modelled as `Nat`; where the source can wrap
  (release-mode overflow semantics) we reduce modulo `2^64` explicitly.
* Rust panics (integer underflow in debug mode, out-of-bounds indexing)
  are modelled by `Except String` results.
* A vertex map (`Vec<Vec<usize>>` of permutation rows) is modelled as a
  `List (Nat → Nat)` of row functions; `row[v]` becomes `row v`.
* The geometric collaborators (`Subspace::from_points`, `is_hyperplane`,
  `distance`, `flatten`) live outside the given sources (the geometry
  module is an external collaborator per the spec); they are passed as
  oracle parameters, and claims proved over all oracles.
* Likewise `Abstract::is_dyadic` and `element_sort_strong_with_local`
  (the abstract-polytope layer) are external; they appear as parameters
  (`check`, `canon`) or as definitions modelled from the spec.
-/

namespace Faceting

/-- An element of an abstract-polytope rank: its set of subelement
indices one rank down.  Superelements are never populated during the
search in the source (`Superelements::new()` everywhere), so they are
omitted. -/
structure Element where
  subs : List Nat
deriving DecidableEq, Repr

/-- One rank: an ordered list of elements (`ElementList` in the source). -/
abbrev ElementListT := List Element

/-- A rank-indexed incidence structure (`Ranks` in the source): entry 0 is
the nullitope rank, the last entry the body rank. -/
abbrev RanksT := List ElementListT

/-! ## The rank-2 base case of `faceting_subdim` (source lines 32-88)

At rank 2 the only faceting of a dyad is itself; the code distinguishes a
"snub" edge (no row of the local vertex map sends local vertex 0 to local
vertex 1) from a non-snub one. -/

/-- The ranks of a dyad.  `Abstract::dyad()` is built by the external
abstract-polytope layer; modelled from the spec: nullitope, two vertices,
one edge containing both. -/
def dyadRanks : RanksT := [[⟨[]⟩], [⟨[0]⟩, ⟨[0]⟩], [⟨[0, 1]⟩]]

/-- The "virtual edge" ridge template whose rank-2 entry holds the single
local vertex `v` (source lines 50-58 and 76-84: an empty rank, a rank with
one element with sub `0`, and a rank with one element with sub `v`). -/
def virtualEdge (v : Nat) : RanksT := [[], [⟨[0]⟩], [⟨[v]⟩]]

/-- Return type of `faceting_subdim`: the list of facetings (each a ranks
structure plus the `(hyperplane orbit, local facet)` pairs used), the
per-orbit facet counts, and the possible ridges per orbit. -/
abbrev SubdimResult :=
  List (RanksT × List (Nat × Nat)) × List Nat × List (List RanksT)

/-- The rank-2 base case of `faceting_subdim`, translated from source
lines 32-88.  `snub` starts `true` and is cleared as soon as some row of
the vertex map maps local vertex 0 to local vertex 1. -/
def facetingSubdimRank2 (vertexMap : List (Nat → Nat)) : SubdimResult :=
  let snub := ¬ vertexMap.any (fun row => row 0 = 1)
  if snub then
    ([(dyadRanks, [(0, 0), (1, 0)])],
     [1, 1],
     [[virtualEdge 0], [virtualEdge 1]])
  else
    ([(dyadRanks, [(0, 0)])],
     [2],
     [[virtualEdge 0]])

/-- A swap of `0` and `1`, used as a concrete vertex-map row in witnesses. -/
def swapRow : Nat → Nat := fun v => if v = 0 then 1 else if v = 1 then 0 else v

/-! ## Stabilizer computation (source lines 245-271 and 746-772)

For each hyperplane orbit, both `faceting` and `faceting_subdim` collect
the rows of the vertex map that fix the hyperplane's (sorted) vertex list
setwise, then build `map_back`, a map from global vertex index to local
index, keyed on `stabilizer[0]`. -/

/-- The stabilizer of the vertex list `hpv`: the slices `hpv.map row` of
the rows that permute `hpv` (their sorted slice equals `hpv`).  Translated
from the loop at source lines 246-257 / 747-759 (`sort_unstable` becomes
insertion sort, which agrees with it on `Nat` lists). -/
def stabilizerOf (vm : List (Nat → Nat)) (hpv : List Nat) : List (List Nat) :=
  vm.filterMap (fun row =>
    let slice := hpv.map row
    if List.insertionSort (· ≤ ·) slice = hpv then some slice else none)

/-- `map_back.get(x)`: the local index of global vertex `x` in
`stabilizer[0]`.  The source uses a `BTreeMap` built from
`stabilizer[0].iter().enumerate()`; since the keys are distinct this is
exactly the index of `x` in that list. -/
def idxOf? : List Nat → Nat → Option Nat
  | [], _ => none
  | a :: l, x => if a = x then some 0 else (idxOf? l x).map (· + 1)

/-! ## Orbit decomposition (source lines 95-142 and 601-648)

The same orbit-discovery code appears verbatim in `faceting` and in
`faceting_subdim`; it is embedded once.  The `checked` boolean arrays are
modelled as lists of the marked vertices / ordered pairs. -/

/-- One orbit-discovery pass for vertex `v` (the inner `for row in
&vertex_map` loop at lines 104-112 / 610-618): push each image `row v`
not yet checked and mark it. -/
def orbitStep (v : Nat) : List (Nat → Nat) → List Nat → List Nat × List Nat
  | [], ch => ([], ch)
  | row :: rest, ch =>
    let c := row v
    if c ∈ ch then orbitStep v rest ch
    else
      let r := orbitStep v rest (c :: ch)
      (c :: r.1, r.2)

/-- The outer `for v in 0..total_vert_count` loop of vertex-orbit
discovery. -/
def vertexOrbitsAux (vm : List (Nat → Nat)) : List Nat → List Nat → List (List Nat)
  | [], _ => []
  | v :: vs, ch =>
    if v ∈ ch then vertexOrbitsAux vm vs ch
    else
      let r := orbitStep v vm ch
      r.1 :: vertexOrbitsAux vm vs r.2

/-- Vertex orbits of `0..n` under the vertex map (source lines 99-116 /
605-622). -/
def vertexOrbits (n : Nat) (vm : List (Nat → Nat)) : List (List Nat) :=
  vertexOrbitsAux vm (List.range n) []

/-- One pair-orbit expansion for the representative pair `(a, b)` (the
inner `for row in &vertex_map` loop at lines 130-138 / 636-644): push each
image pair not yet checked and mark both orders. -/
def pairStep (a b : Nat) :
    List (Nat → Nat) → List (Nat × Nat) → List (Nat × Nat) × List (Nat × Nat)
  | [], ch => ([], ch)
  | row :: rest, ch =>
    let c := (row a, row b)
    if c ∈ ch then pairStep a b rest ch
    else
      let r := pairStep a b rest (c :: c.swap :: ch)
      (c :: r.1, r.2)

/-- The `for vertex in 0..vertices.len()` loop for one vertex-orbit
representative `rep` (lines 123-141 / 629-647): skip `rep` itself,
already-checked pairs and pairs rejected by the edge-length filter
`keep`; expand the rest.  `keep a b` models
`((points[b] - points[a]).norm() - e_l).abs() <= EPS`; with no edge-length
constraint it is constantly `true`. -/
def pairOrbitsInner (vm : List (Nat → Nat)) (keep : Nat → Nat → Bool) (rep : Nat) :
    List Nat → List (Nat × Nat) → List (List (Nat × Nat)) × List (Nat × Nat)
  | [], ch => ([], ch)
  | x :: xs, ch =>
    if x ≠ rep ∧ (rep, x) ∉ ch then
      if keep rep x then
        let r := pairStep rep x vm ch
        let s := pairOrbitsInner vm keep rep xs r.2
        (r.1 :: s.1, s.2)
      else pairOrbitsInner vm keep rep xs ch
    else pairOrbitsInner vm keep rep xs ch

/-- The `for orbit in vertex_orbits` loop (lines 121-142 / 627-648);
`rep` is `orbit[0]`. -/
def pairOrbitsOuter (n : Nat) (vm : List (Nat → Nat)) (keep : Nat → Nat → Bool) :
    List (List Nat) → List (Nat × Nat) → List (List (Nat × Nat))
  | [], _ => []
  | orb :: orbs, ch =>
    let r := pairOrbitsInner vm keep (orb.headD 0) (List.range n) ch
    r.1 ++ pairOrbitsOuter n vm keep orbs r.2

/-- Pair orbits of `0..n` under the vertex map, filtered by `keep`. -/
def pairOrbits (n : Nat) (vm : List (Nat → Nat)) (keep : Nat → Nat → Bool) :
    List (List (Nat × Nat)) :=
  pairOrbitsOuter n vm keep (vertexOrbits n vm) []

/-! ### Concrete data for the edge-length-filter counterexample -/

/-- Three collinear points with integer coordinates 0, 1 and 3 (exact, so
the epsilon comparisons of the source are exact equality tests). -/
def linePts : List Int := [0, 1, 3]

/-- The edge-length filter of `faceting` for `linePts` with
`edge_length = 2`: `((points[b] - points[a]).norm() - e_l).abs() <= EPS`
accepts exactly the pairs at distance 2, since all distances here are
integers. -/
def lineKeep (a b : Nat) : Bool :=
  (linePts.getD a 0 - linePts.getD b 0).natAbs = 2

/-- A full (closed) permutation table on `{0, 1, 2}`: the identity and the
transposition of 0 and 1.  A legal `GroupEnum::VertexMap` input; it is not
distance-preserving for `linePts`. -/
def lineMap : List (Nat → Nat) := [fun v => v, swapRow]

/-- The rows of the vertex map form a full (closed) permutation table:
the identity is a row, rows are closed under composition, and every row
has an inverse row.  This is the caller contract stated by the spec
("the caller must supply the full group/table"). -/
structure IsGroupTable (vm : List (Nat → Nat)) : Prop where
  id_mem : ∃ e ∈ vm, ∀ v, e v = v
  comp_mem : ∀ g ∈ vm, ∀ h ∈ vm, ∃ k ∈ vm, ∀ v, k v = g (h v)
  inv_mem : ∀ g ∈ vm, ∃ g' ∈ vm, (∀ v, g' (g v) = v) ∧ (∀ v, g (g' v) = v)

/-- `b` lies in the group orbit of `a`. -/
def inOrbit (vm : List (Nat → Nat)) (a b : Nat) : Prop := ∃ g ∈ vm, g a = b

/-- The checked set is closed under the vertex map. -/
def MapClosed (vm : List (Nat → Nat)) (ch : List Nat) : Prop :=
  ∀ x ∈ ch, ∀ g ∈ vm, g x ∈ ch

/-- The checked-pair set is closed under swapping (both orders are always
marked together). -/
def SymCh (ch : List (Nat × Nat)) : Prop := ∀ p ∈ ch, p.swap ∈ ch

/-- The checked-pair set is closed under the vertex map. -/
def PairClosed (vm : List (Nat → Nat)) (ch : List (Nat × Nat)) : Prop :=
  ∀ p ∈ ch, ∀ g ∈ vm, (g p.1, g p.2) ∈ ch

/-- `o` is the full group orbit of the pair `(rep, x₀)`, up to swapping. -/
def IsPairOrbit (vm : List (Nat → Nat)) (rep x₀ : Nat) (o : List (Nat × Nat)) : Prop :=
  (∀ p ∈ o, ∃ g ∈ vm, (g rep, g x₀) = p) ∧
  (∀ g ∈ vm, (g rep, g x₀) ∈ o ∨ (g x₀, g rep) ∈ o)

/-! ## Hyperplane enumeration, top level (source lines 650-734)

Unlike `faceting_subdim` (lines 152-156 and 212-214), the top-level copy
of this loop computes `update = rank - 4` without guarding `rank > 3` and
has no `break 'b` for `rank <= 3`.  `usize` arithmetic wraps in release
mode; the wrapped value is then used to index `new_vertices`. -/

/-- The `usize` modulus. -/
def usizeSize : Nat := 2 ^ 64

/-- Wrapping `usize` addition. -/
def wadd (a b : Nat) : Nat := (a + b) % usizeSize

/-- Wrapping `usize` subtraction. -/
def wsub (a b : Nat) : Nat := (a % usizeSize + (usizeSize - b % usizeSize)) % usizeSize

/-- Geometry oracles for the external affine-subspace layer
(`Subspace::from_points`, `is_hyperplane`, `distance(..) < EPS`), indexed
by vertex indices since the vertex coordinates are fixed per call.
Modelled from the spec: the geometry layer is an external collaborator
specified only by this interface. -/
structure HPGeo (σ : Type) where
  fromPts : List Nat → σ
  isHP : σ → Bool
  onPlane : σ → Nat → Bool

/-- State of hyperplane enumeration: the dedup set `checked` of sorted
vertex lists, and the accumulated orbits (representative subspaces plus
per-member vertex lists). -/
structure HPState (σ : Type) where
  checked : List (List Nat)
  orbits : List (List σ × List (List Nat))

/-- Orbit expansion of a newly found hyperplane (source lines 690-711):
apply every vertex-map row to its vertex list, registering each unseen
sorted image. -/
def hpExpand {σ : Type} (geo : HPGeo σ) (hpVerts : List Nat) :
    List (Nat → Nat) → List (List Nat) → List (List Nat) × List σ × List (List Nat)
  | [], checked => (checked, [], [])
  | row :: rest, checked =>
    let newHpV := hpVerts.map row
    let sorted := List.insertionSort (· ≤ ·) newHpV
    if sorted ∈ checked then hpExpand geo hpVerts rest checked
    else
      let r := hpExpand geo hpVerts rest (sorted :: checked)
      (r.1, geo.fromPts newHpV :: r.2.1, newHpV :: r.2.2)

/-- The body of the innermost `'c` block (source lines 661-714): apply the
edge-length filter to the added vertices (a failed check `break 'c`s past
the rest of the body), build the subspace from the tuple, and if it is a
hyperplane register its orbit. -/
def hpBody {σ : Type} (geo : HPGeo σ) (n : Nat) (vm : List (Nat → Nat))
    (keepOpt : Option (Nat → Nat → Bool)) (rep : Nat × Nat) (nv : List Nat)
    (st : HPState σ) : HPState σ :=
  if (match keepOpt with
      | some k => nv.all (fun v => k rep.1 v)
      | none => true) then
    let hp := geo.fromPts (rep.1 :: rep.2 :: nv)
    if geo.isHP hp then
      let hpVerts := List.insertionSort (· ≤ ·)
        ((List.range n).filter (fun idx => geo.onPlane hp idx))
      if hpVerts ∈ st.checked then st
      else
        let r := hpExpand geo hpVerts vm st.checked
        { checked := r.1, orbits := st.orbits ++ [(r.2.1, r.2.2)] }
    else st
  else st

/-- The tail of the odometer increment (source lines 726-728), iterated
`stop - i` times: `new_vertices[i] = new_vertices[i-1] + 1` for
`i in update+1..rank-3`. -/
def resetLoopAux : Nat → List Nat → Nat → List Nat
  | 0, nv, _ => nv
  | k + 1, nv, i => resetLoopAux k (nv.set i (nv.getD (i - 1) 0 + 1)) (i + 1)

/-- The `for i in update+1..stop` rewrite loop. -/
def resetLoop (nv : List Nat) (i stop : Nat) : List Nat :=
  resetLoopAux (stop - i) nv i

/-- The `Increment new_vertices` loop (source lines 716-732), with release
`usize` semantics: `new_vertices[update]` is an indexing operation that
panics (modelled as an error) when `update` is out of bounds, which is
exactly what happens at the top level when `rank = 3` (`update` wrapped to
`2^64 - 1`, `new_vertices` empty).  Returns `none` for `break 'b`;
`update < 1` means `update = 0`. -/
def hpInc (n rank : Nat) (nv : List Nat) : Nat → Except String (Option (List Nat × Nat))
  | 0 =>
    match nv.get? 0 with
    | none => .error "index out of bounds"
    | some x =>
      if x = wadd (wsub (wadd n 0) rank) 3 then .ok none
      else .ok (some (resetLoop (nv.set 0 (x + 1)) 1 (rank - 3), wsub rank 4))
  | u + 1 =>
    match nv.get? (u + 1) with
    | none => .error "index out of bounds"
    | some x =>
      if x = wadd (wsub (wadd n (u + 1)) rank) 3 then hpInc n rank nv u
      else
        .ok (some (resetLoop (nv.set (u + 1) (x + 1)) (u + 2) (rank - 3), wsub rank 4))

/-- The `'b` loop for one pair orbit (source lines 660-733): run the `'c`
body, then increment the odometer.  `fuel` bounds the number of odometer
states; exhausting it yields a distinguished error (never reached in the
theorems below, which either error earlier or supply no pair orbits). -/
def hpLoop {σ : Type} (geo : HPGeo σ) (n rank : Nat) (vm : List (Nat → Nat))
    (keepOpt : Option (Nat → Nat → Bool)) (rep : Nat × Nat) :
    Nat → List Nat → Nat → HPState σ → Except String (HPState σ)
  | 0, _, _, _ => .error "fuel exhausted"
  | fuel + 1, nv, update, st =>
    let st' := hpBody geo n vm keepOpt rep nv st
    match hpInc n rank nv update with
    | .error e => .error e
    | .ok none => .ok st'
    | .ok (some r) => hpLoop geo n rank vm keepOpt rep fuel r.1 r.2 st'

/-- Hyperplane search for one pair orbit (source lines 655-659): the
representative is `pair_orbit[0]`, the odometer starts at all zeros, and
`update` is initialized to the UNGUARDED `rank - 4` (wrapping `usize`
subtraction; compare `faceting_subdim`, which guards `rank > 3`). -/
def hpPerPair {σ : Type} (geo : HPGeo σ) (n rank fuel : Nat)
    (vm : List (Nat → Nat)) (keepOpt : Option (Nat → Nat → Bool))
    (po : List (Nat × Nat)) (st : HPState σ) : Except String (HPState σ) :=
  hpLoop geo n rank vm keepOpt (po.headD (0, 0)) fuel
    (List.replicate (rank - 3) 0) (wsub rank 4) st

/-- The `for pair_orbit in pair_orbits` loop (source line 655). -/
def hyperplaneStage {σ : Type} (geo : HPGeo σ) (n rank fuel : Nat)
    (vm : List (Nat → Nat)) (keepOpt : Option (Nat → Nat → Bool)) :
    List (List (Nat × Nat)) → HPState σ → Except String (HPState σ)
  | [], st => .ok st
  | po :: pos, st =>
    match hpPerPair geo n rank fuel vm keepOpt po st with
    | .error e => .error e
    | .ok st' => hyperplaneStage geo n rank fuel vm keepOpt pos st'

/-- The edge-length filter actually applied: `None` means no filtering. -/
def keepOf : Option (Nat → Nat → Bool) → Nat → Nat → Bool
  | some k => k
  | none => fun _ _ => true

/-! ### Concrete data for the square (claim C3) -/

/-- The dihedral group of order 8 acting on the square's vertex indices
`0..4` in cyclic order: rotations and reflections.  Modelled from the
spec: `get_symmetry_group` is an external collaborator returning the
vertex-map table of the polytope's full symmetry group. -/
def squareRows : List (List Nat) :=
  [[0, 1, 2, 3], [1, 2, 3, 0], [2, 3, 0, 1], [3, 0, 1, 2],
   [1, 0, 3, 2], [3, 2, 1, 0], [0, 3, 2, 1], [2, 1, 0, 3]]

/-- A permutation row given by a lookup table. -/
def permOf (l : List Nat) : Nat → Nat := fun v => l.getD v v

/-- The square's vertex map. -/
def squareMap : List (Nat → Nat) := squareRows.map permOf

/-! ## Facet combination search (source lines 877-1097)

The stack `facets` is modelled head-first: the list head is the top of
the stack (`facets.last()`), the last entry the root frame. -/

/-- A stack frame: `(hyperplane-orbit index, local-facet index)`. -/
abbrev Frame := Nat × Nat

/-- Result of one normalization pass: either a normalized stack or loop
exit carrying the final popped root frame. -/
inductive NormR
  | cont (s : List Frame)
  | exit (f : Frame)
deriving DecidableEq, Repr

/-- The normalization loop at the top of `'l` (source lines 884-907): pop
frames whose orbit index is exhausted (advancing the frame below), advance
a frame whose facet index is exhausted, stop when the top frame indexes a
real facet.  `exit` is `break 'l`: it fires exactly when the last popped
frame — the root — has `h ≥ lens.length`.  (The empty-stack input case is
unreachable from the initial one-frame stack.) -/
def normalize (lens : List Nat) : List Frame → NormR
  | [] => .exit (lens.length, 0)
  | (h, f) :: rest =>
    if hh : lens.length ≤ h then
      match rest with
      | [] => .exit (h, f)
      | (h2, f2) :: rest2 =>
        if lens.getD h2 0 ≤ f2 + 1 then normalize lens ((h2 + 1, 0) :: rest2)
        else normalize lens ((h2, f2 + 1) :: rest2)
    else if lens.getD h 0 ≤ f then normalize lens ((h + 1, 0) :: rest)
    else .cont ((h, f) :: rest)
termination_by s => s.length + (s.map (fun p => lens.length + 2 - p.1)).sum
decreasing_by
  · simp only [List.map_cons, List.sum_cons, List.length_cons]
    omega
  · simp only [List.map_cons, List.sum_cons, List.length_cons]
    omega
  · simp only [List.map_cons, List.sum_cons, List.length_cons]
    omega

/-- Push a new frame `(top.h + 1, 0)` (source lines 1056-1057, 1093-1094). -/
def pushF : List Frame → List Frame
  | [] => []
  | (h, f) :: rest => (h + 1, 0) :: (h, f) :: rest

/-- Advance the top frame (source lines 1044-1051 etc.): carry to the next
orbit when the facet index is the last one, else increment it. -/
def advanceF (lens : List Nat) : List Frame → List Frame
  | [] => []
  | (h, f) :: rest =>
    if f = lens.getD h 0 - 1 then (h + 1, 0) :: rest else (h, f + 1) :: rest

/-- The post-classification transition (source lines 938-1097, state
part): classification 0 is valid, 1 exotic, 2 incomplete.  The noble
budget forces an advance instead of a push when the stack length equals
the budget — in both the valid and the incomplete branch. -/
def transitionF (lens : List Nat) (noble : Option Nat) (irc : Bool)
    (c : Fin 3) (s : List Frame) : List Frame :=
  if c = 1 then advanceF lens s
  else if c = 2 then
    match noble with
    | some m => if s.length = m then advanceF lens s else pushF s
    | none => pushF s
  else
    match noble with
    | some m =>
      if s.length = m then advanceF lens s
      else if irc then pushF s else advanceF lens s
    | none => if irc then pushF s else advanceF lens s

/-- One full iteration of the `'l` loop, state part: normalize, classify,
transition.  The classification function is a parameter: termination and
the stack-depth invariant hold for every classification outcome, in
particular for the ridge-coverage classification `classifyData` below. -/
def stepState (lens : List Nat) (classify : List Frame → Fin 3)
    (noble : Option Nat) (irc : Bool) (s : List Frame) : NormR :=
  match normalize lens s with
  | .exit f => .exit f
  | .cont s' => .cont (transitionF lens noble irc (classify s') s')

/-- Iterate `stepState`; `exit` is absorbing. -/
def stepIter (lens : List Nat) (classify : List Frame → Fin 3)
    (noble : Option Nat) (irc : Bool) : Nat → NormR → NormR
  | 0, r => r
  | k + 1, r =>
    match r with
    | .exit f => .exit f
    | .cont s => stepIter lens classify noble irc k (stepState lens classify noble irc s)

/-! ### Termination measure for the combination search

Every iteration of the `'l` loop strictly increases the lexicographic
position of the stack among all bounded stacks: frames are encoded as
digits (root first, most significant first) in a sufficiently large base,
padded to the maximal stack depth. -/

/-- The largest facet-list size. -/
def maxLen (lens : List Nat) : Nat := lens.foldr max 0

/-- Digit encoding of one frame (always positive). -/
def encF (lens : List Nat) (p : Frame) : Nat :=
  p.1 * (maxLen lens + 1) + p.2 + 1

/-- Digit base: strictly larger than any reachable frame's encoding. -/
def baseB (lens : List Nat) : Nat :=
  (lens.length + 2) * (maxLen lens + 1) + 1

/-- Horner evaluation of a root-first digit string. -/
def eH (lens : List Nat) (l : List Frame) : Nat :=
  l.foldl (fun acc d => acc * baseB lens + encF lens d) 0

/-- The strictly increasing position of a stack in the search's visit
order: digits from the root, padded to width `lens.length + 2`. -/
def eStack (lens : List Nat) (s : List Frame) : Nat :=
  eH lens s.reverse * baseB lens ^ (lens.length + 2 - s.length)

/-- Invariant of reachable search stacks: non-empty, orbit indices
strictly decreasing from the top of the stack downwards, and all indices
bounded. -/
def StackInv (lens : List Nat) (s : List Frame) : Prop :=
  s ≠ [] ∧ List.Chain' (fun a b => b.1 < a.1) s ∧
    ∀ p ∈ s, p.1 ≤ lens.length + 1 ∧ p.2 ≤ maxLen lens

/-- The arrays consumed by the ridge-coverage computation (source lines
908-926): facet-list sizes, per-facet local ridge indices,
`ridge_idx_orbits`, `ff_counts`, `f_counts` and `ridge_counts`. -/
structure CombData where
  lens : List Nat
  ridgeIdxs : List (List (List (Nat × Nat)))
  ridgeIdxOrbits : List (List (List Nat))
  ffCounts : List (List Nat)
  fCounts : List Nat
  ridgeCounts : List Nat
deriving DecidableEq, Repr

/-- Inner loop of the coverage computation for one facet (source lines
914-925): accumulate `f_count * ridge_count / total_ridge_count` into the
ridge-orbit vector and abort (`break 'a`) as soon as an entry exceeds 2.
Note the division is plain truncating integer division. -/
def coverRidges (d : CombData) (hp fCount : Nat) :
    List (Nat × Nat) → List Nat → Except Unit (List Nat)
  | [], ridges => .ok ridges
  | ri :: rest, ridges =>
    let ridgeOrbit := ((d.ridgeIdxOrbits.getD hp []).getD ri.1 []).getD ri.2 0
    let ridgeCount := (d.ffCounts.getD hp []).getD ri.1 0
    let totalRidgeCount := d.ridgeCounts.getD ridgeOrbit 0
    let mul := fCount * ridgeCount / totalRidgeCount
    let newVal := ridges.getD ridgeOrbit 0 + mul
    if newVal > 2 then .error ()
    else coverRidges d hp fCount rest (ridges.set ridgeOrbit newVal)

/-- The `'a` loop over the stack (source lines 910-927); the Rust stack is
iterated root-first, hence `s.reverse` at the call site. -/
def coverStack (d : CombData) : List Frame → List Nat → Except Unit (List Nat)
  | [], ridges => .ok ridges
  | (hp, f) :: rest, ridges =>
    match coverRidges d hp (d.fCounts.getD hp 0)
        ((d.ridgeIdxs.getD hp []).getD f []) ridges with
    | .error e => .error e
    | .ok r' => coverStack d rest r'

/-- Classification of the coverage vector (source lines 928-937): exotic
(1) if some entry exceeds 2, else incomplete (2) if some entry is exactly
1, else valid (0).  Entries equal to 0 do not block validity, exactly as
in the source. -/
def classifyData (d : CombData) (s : List Frame) : Fin 3 :=
  match coverStack d s.reverse (List.replicate d.ridgeCounts.length 0) with
  | .error _ => 1
  | .ok ridges =>
    if ridges.any (fun r => r > 2) then 1
    else if ridges.any (fun r => r = 1) then 2
    else 0

/-- Concrete coverage data with a single facet type whose one ridge orbit
is covered exactly twice by it: `mul = f_count * ridge_count /
total_ridge_count = 1 * 2 / 1 = 2`, so the singleton stack is valid. -/
def nobleProbe : CombData :=
  { lens := [1], ridgeIdxs := [[[(0, 0)]]], ridgeIdxOrbits := [[[0]]],
    ffCounts := [[2]], fCounts := [1], ridgeCounts := [1] }

/-! ## Faceting assembler (source lines 940-1040) -/

/-- Inputs of the assembler for one accepted stack: the chosen facet data,
the vertex map, and the two external operations
`element_sort_strong_with_local` (`canon`) and the builder's dyadic test
(`check`), which live outside the given sources. -/
structure AsmData (V : Type) where
  rank : Nat
  vertices : List V
  vm : List (Nat → Nat)
  pfGlobal : List (List RanksT)
  pfLocal : List (List RanksT)
  canon : RanksT → RanksT → RanksT
  check : RanksT → Bool

/-- Expand one chosen facet type under every vertex-map row (source lines
943-959): rewrite its rank-2 subelements through the row and
canonicalize against the local copy. -/
def expandFacet {V : Type} (d : AsmData V) (hp f : Nat) : List RanksT :=
  let facet := (d.pfGlobal.getD hp []).getD f []
  let facetLocal := (d.pfLocal.getD hp []).getD f []
  d.vm.map (fun row =>
    let newRank2 := (facet.getD 2 []).map (fun el => (⟨el.subs.map row⟩ : Element))
    d.canon (facet.set 2 newRank2) facetLocal)

/-- Deduplicating insertion, preserving first-seen order (models the
`HashSet` whose iteration order is unspecified; all claim-relevant parts
of the built structure are order-independent). -/
def dedupInsert (acc : List RanksT) (x : RanksT) : List RanksT :=
  if x ∈ acc then acc else acc ++ [x]

/-- The deduplicated set of concrete global facets of an accepted stack
(source lines 942-964); the Rust stack is iterated root-first. -/
def facetVecOf {V : Type} (d : AsmData V) (s : List Frame) : List RanksT :=
  s.reverse.foldl (fun acc (p : Frame) =>
    (expandFacet d p.1 p.2).foldl dedupInsert acc) []

/-- `subs_to_idx` / `idx_to_subs` for rank `r` (source lines 971-984):
scan every facet's rank-`r` elements in order, assigning fresh indices to
unseen subelement sets. -/
def collectSubs (fv : List RanksT) (r : Nat) : List (List Nat) :=
  fv.foldl (fun acc f =>
    (f.getD r []).foldl
      (fun acc2 el => if el.subs ∈ acc2 then acc2 else acc2 ++ [el.subs]) acc) []

/-- Rewrite one facet's rank-`r+1` references through the table (source
lines 985-996): each sub index is replaced by the canonical index of the
referenced element's subelement set. -/
def rewriteFacet (tbl : List (List Nat)) (r : Nat) (f : RanksT) : RanksT :=
  f.set (r + 1) ((f.getD (r + 1) []).map (fun el =>
    (⟨el.subs.map (fun sub =>
      tbl.indexOf ((f.getD r []).getD sub ⟨[]⟩).subs)⟩ : Element)))

/-- The `for r in 2..rank-1` loop (source lines 970-1002), iterated
`stop - r` times: returns the rewritten facet structures and the list of
intermediate ranks. -/
def middleLoopAux : Nat → Nat → List RanksT → List RanksT × List ElementListT
  | 0, _, fv => (fv, [])
  | k + 1, r, fv =>
    let tbl := collectSubs fv r
    let m := middleLoopAux k (r + 1) (fv.map (rewriteFacet tbl r))
    (m.1, (tbl.map (fun subs => (⟨subs⟩ : Element))) :: m.2)

/-- The `for r in 2..stop` reindexing loop. -/
def middleLoop (r stop : Nat) (fv : List RanksT) :
    List RanksT × List ElementListT :=
  middleLoopAux (stop - r) r fv

/-- The deduplicated facet rank (source lines 1004-1014): sort each
facet's top subelement set and keep the first occurrence of each. -/
def facetRankOf (rank : Nat) (fv : List RanksT) : ElementListT :=
  fv.foldl (fun acc f =>
    let subs := List.insertionSort (· ≤ ·) (((f.getD (rank - 1) []).getD 0 ⟨[]⟩).subs)
    if (⟨subs⟩ : Element) ∈ acc then acc else acc ++ [(⟨subs⟩ : Element)]) []

/-- Build the full rank structure of an accepted combination (source lines
966-1018): nullitope, one vertex element per input vertex, the
intermediate ranks, the deduplicated facet rank, and the body referencing
every facet. -/
def buildRanks {V : Type} (d : AsmData V) (fv : List RanksT) : RanksT :=
  let m := middleLoop 2 (d.rank - 1) fv
  let fr := facetRankOf d.rank m.1
  (([(⟨[]⟩ : Element)] : ElementListT)) ::
    (List.replicate d.vertices.length (⟨[0]⟩ : Element)) ::
    (m.2 ++ [fr, [(⟨List.range fr.length⟩ : Element)]])

/-- The candidate incidence structure assembled from an accepted stack. -/
def candidateOf {V : Type} (d : AsmData V) (s : List Frame) : RanksT :=
  buildRanks d (facetVecOf d s)

/-- Emission (source lines 1020-1039): feed the candidate to the external
builder; if the dyadic check passes, emit it paired with a copy of the
input vertex coordinates, otherwise emit nothing — the candidate is
silently dropped, no error is raised and the search state is untouched. -/
def emitOf {V : Type} (d : AsmData V) (s : List Frame) : Option (RanksT × List V) :=
  let ranks := candidateOf d s
  if d.check ranks then some (ranks, d.vertices) else none

/-- The outputs emitted within the first `k` iterations of the `'l` loop
started from state `r`. -/
def outputsUpTo {V : Type} (lens : List Nat) (classify : List Frame → Fin 3)
    (noble : Option Nat) (irc : Bool) (d : AsmData V) :
    Nat → NormR → List (RanksT × List V)
  | 0, _ => []
  | k + 1, r =>
    match r with
    | .exit _ => []
    | .cont s =>
      match normalize lens s with
      | .exit _ => []
      | .cont s' =>
        let rest := outputsUpTo lens classify noble irc d k
          (.cont (transitionF lens noble irc (classify s') s'))
        if classify s' = 0 then
          match emitOf d s' with
          | some out => out :: rest
          | none => rest
        else rest

/-- The candidates assembled (before the dyadic check) within the first
`k` iterations of the `'l` loop started from state `r`. -/
def candidatesUpTo {V : Type} (lens : List Nat) (classify : List Frame → Fin 3)
    (noble : Option Nat) (irc : Bool) (d : AsmData V) :
    Nat → NormR → List RanksT
  | 0, _ => []
  | k + 1, r =>
    match r with
    | .exit _ => []
    | .cont s =>
      match normalize lens s with
      | .exit _ => []
      | .cont s' =>
        let rest := candidatesUpTo lens classify noble irc d k
          (.cont (transitionF lens noble irc (classify s') s'))
        if classify s' = 0 then candidateOf d s' :: rest else rest

/-! ## The chained top-level model (`Concrete::faceting`, lines 566-1102)

The recursive `faceting_subdim` call per hyperplane orbit and the
ridge-orbit registry (which depend on the external canonicalization
`element_sort_strong`) are abstracted as the per-orbit oracle `subdim` and
the registry oracle `ridgeReg`; the claims settled against this chain
either stop before these stages (C3 panics during hyperplane enumeration)
or force their inputs to be empty (C8 has zero hyperplane orbits, so the
per-orbit loop never runs and every derived array is empty). -/

/-- The data returned by one `faceting_subdim` call (source lines
779-800). -/
structure SubdimOut where
  pf : List (RanksT × List (Nat × Nat))
  pfg : List (RanksT × List (Nat × Nat))
  ffCounts : List Nat
  ridges : List (List RanksT)

/-- The chained model of `Concrete::faceting`: orbit decomposition, pair
orbits, hyperplane enumeration, per-orbit sub-faceting, ridge registry,
and the combination search with assembly, for `steps` iterations of the
search loop. -/
def facetingModel (σ V : Type) (geo : HPGeo σ) (n rank : Nat)
    (vm : List (Nat → Nat)) (keepOpt : Option (Nat → Nat → Bool))
    (vertices : List V)
    (subdim : List σ × List (List Nat) → SubdimOut)
    (ridgeReg : List (List (List RanksT)) → List (List (List Nat)) × List Nat)
    (canon : RanksT → RanksT → RanksT) (check : RanksT → Bool)
    (noble : Option Nat) (irc : Bool) (steps : Nat) :
    Except String (List (RanksT × List V)) :=
  match hyperplaneStage geo n rank ((n + 1) ^ rank + 1) vm keepOpt
      (pairOrbits n vm (keepOf keepOpt)) ⟨[], []⟩ with
  | .error e => .error e
  | .ok st =>
    let rows := st.orbits.map subdim
    let reg := ridgeReg (rows.map (fun r => r.ridges))
    let d : CombData :=
      { lens := rows.map (fun r => r.pf.length),
        ridgeIdxs := rows.map (fun r => r.pf.map (fun q => q.2)),
        ridgeIdxOrbits := reg.1,
        ffCounts := rows.map (fun r => r.ffCounts),
        fCounts := st.orbits.map (fun a => a.1.length),
        ridgeCounts := reg.2 }
    let ad : AsmData V :=
      { rank := rank, vertices := vertices, vm := vm,
        pfGlobal := rows.map (fun r => r.pfg.map (fun q => q.1)),
        pfLocal := rows.map (fun r => r.pf.map (fun q => q.1)),
        canon := canon, check := check }
    .ok (outputsUpTo d.lens (classifyData d) noble irc ad steps (.cont [(0, 0)]))

/-! ## The `faceting_subdim` pipeline at rank 3 (source lines 23-430)

The recursive call at rank 3 runs the same hyperplane enumeration with
two differences from the top level (`update = rank - 4` is guarded by
`rank > 3`, lines 153-156, and `break 'b` fires at `rank <= 3` as soon
as a hyperplane is found, lines 212-214), then computes per-orbit
stabilizers, recurses into the rank-2 base case, registers ridge orbits,
and runs the same combination search on the resulting arrays (coverage
arithmetic at lines 406-424, with the same truncating division and no
assertion). -/

/-- Whether the `'c` body reaches the `is_hyperplane` branch: the
edge-length filter passes and the tuple spans a hyperplane (source lines
159-176).  The `break 'b` at `rank <= 3` (lines 212-214) fires exactly
when this holds. -/
def hpHyp {σ : Type} (geo : HPGeo σ) (keepOpt : Option (Nat → Nat → Bool))
    (rep : Nat × Nat) (nv : List Nat) : Bool :=
  (match keepOpt with
   | some k => nv.all (fun v => k rep.1 v)
   | none => true) &&
  geo.isHP (geo.fromPts (rep.1 :: rep.2 :: nv))

/-- The `'b` loop of `faceting_subdim` (source lines 157-235): same as
`hpLoop`, except that after the `'c` body the loop `break 'b`s when
`rank <= 3` and the tuple was a hyperplane.  (`faceting_subdim` builds
the image subspace before the dedup test, lines 196-197, where the top
level builds it after; both computations are pure, so the shared
`hpExpand` covers both.) -/
def hpLoopSub {σ : Type} (geo : HPGeo σ) (n rank : Nat) (vm : List (Nat → Nat))
    (keepOpt : Option (Nat → Nat → Bool)) (rep : Nat × Nat) :
    Nat → List Nat → Nat → HPState σ → Except String (HPState σ)
  | 0, _, _, _ => .error "fuel exhausted"
  | fuel + 1, nv, update, st =>
    let st' := hpBody geo n vm keepOpt rep nv st
    if rank ≤ 3 ∧ hpHyp geo keepOpt rep nv = true then .ok st'
    else
      match hpInc n rank nv update with
      | .error e => .error e
      | .ok none => .ok st'
      | .ok (some r) => hpLoopSub geo n rank vm keepOpt rep fuel r.1 r.2 st'

/-- Hyperplane search of `faceting_subdim` for one pair orbit (source
lines 149-156): unlike the top level, `update = rank - 4` is guarded by
`rank > 3`, so rank 3 starts with `update = 0` over an empty odometer and
never underflows. -/
def hpPerPairSub {σ : Type} (geo : HPGeo σ) (n rank fuel : Nat)
    (vm : List (Nat → Nat)) (keepOpt : Option (Nat → Nat → Bool))
    (po : List (Nat × Nat)) (st : HPState σ) : Except String (HPState σ) :=
  hpLoopSub geo n rank vm keepOpt (po.headD (0, 0)) fuel
    (List.replicate (rank - 3) 0) (if 3 < rank then rank - 4 else 0) st

/-- The `for pair_orbit in pair_orbits` loop of `faceting_subdim` (source
line 149). -/
def subHyperplaneStage {σ : Type} (geo : HPGeo σ) (n rank fuel : Nat)
    (vm : List (Nat → Nat)) (keepOpt : Option (Nat → Nat → Bool)) :
    List (List (Nat × Nat)) → HPState σ → Except String (HPState σ)
  | [], st => .ok st
  | po :: pos, st =>
    match hpPerPairSub geo n rank fuel vm keepOpt po st with
    | .error e => .error e
    | .ok st' => subHyperplaneStage geo n rank fuel vm keepOpt pos st'

/-- `new_stabilizer` (source lines 245-271): the stabilizer slices with
every entry sent through `map_back`, the local-index map keyed on
`stabilizer[0]`. -/
def localStabilizer (vm : List (Nat → Nat)) (hpv : List Nat) : List (List Nat) :=
  let stab := stabilizerOf vm hpv
  let key := stab.headD []
  stab.map (fun slice => slice.map (fun x => (idxOf? key x).getD 0))

/-- Rewrite the rank-2 entry of a ranks structure through an index map
(the ridge globalization at source lines 318-327 and the row images at
lines 342-350). -/
def mapRank2 (f : Nat → Nat) (r : RanksT) : RanksT :=
  r.set 2 ((r.getD 2 []).map (fun el => (⟨el.subs.map f⟩ : Element)))

/-- Lookup in the `ridge_orbits` hash map, modelled as an association
list (only lookups and inserts are performed, so the order is
irrelevant). -/
def regFind : List (RanksT × Nat) → RanksT → Option Nat
  | [], _ => none
  | p :: rest, r => if p.1 = r then some p.2 else regFind rest r

/-- Orbit expansion of a new ridge (source lines 338-358): apply every
vertex-map row to the canonicalized ridge, canonicalize the image, and
register each image not yet in the map, counting the insertions. -/
def regExpand (canon : RanksT → RanksT) (ridge : RanksT) (orbitIdx : Nat) :
    List (Nat → Nat) → List (RanksT × Nat) → Nat → List (RanksT × Nat) × Nat
  | [], assoc, count => (assoc, count)
  | row :: rest, assoc, count =>
    let nr := canon (mapRank2 row ridge)
    if (regFind assoc nr).isSome then regExpand canon ridge orbitIdx rest assoc count
    else regExpand canon ridge orbitIdx rest ((nr, orbitIdx) :: assoc) (count + 1)

/-- State of the ridge-orbit registry (source lines 303-306): the
`ridge_orbits` map, the per-orbit `ridge_counts`, and the running
`orbit_idx`. -/
structure RegState where
  assoc : List (RanksT × Nat)
  counts : List Nat
  orbitIdx : Nat

/-- Process one ridge (source lines 315-363): globalize its rank-2 entry
through the orbit's vertex list `hyperplanes_vertices[hp_i][0]`,
canonicalize, and either read the orbit index off the map or expand a
new orbit. -/
def regRidge (canon : RanksT → RanksT) (vm : List (Nat → Nat)) (hpv : List Nat)
    (st : RegState) (ridge : RanksT) : RegState × Nat :=
  let g := canon (mapRank2 (fun s => hpv.getD s 0) ridge)
  match regFind st.assoc g with
  | some idx => (st, idx)
  | none =>
    let r := regExpand canon g st.orbitIdx vm st.assoc 0
    ({ assoc := r.1, counts := st.counts ++ [r.2], orbitIdx := st.orbitIdx + 1 },
     st.orbitIdx)

/-- The `for ridge in ridges_row_row` loop (source line 315). -/
def regSubOrbit (canon : RanksT → RanksT) (vm : List (Nat → Nat)) (hpv : List Nat) :
    RegState → List RanksT → RegState × List Nat
  | st, [] => (st, [])
  | st, ridge :: rest =>
    let r := regRidge canon vm hpv st ridge
    let s := regSubOrbit canon vm hpv r.1 rest
    (s.1, r.2 :: s.2)

/-- The `for ridges_row_row in ridges_row` loop (source line 312). -/
def regOrbitRow (canon : RanksT → RanksT) (vm : List (Nat → Nat)) (hpv : List Nat) :
    RegState → List (List RanksT) → RegState × List (List Nat)
  | st, [] => (st, [])
  | st, rr :: rest =>
    let r := regSubOrbit canon vm hpv st rr
    let s := regOrbitRow canon vm hpv r.1 rest
    (s.1, r.2 :: s.2)

/-- The full ridge-orbit registry (source lines 303-369): the outer loop
over hyperplane orbits, each paired with its
`hyperplanes_vertices[hp_i][0]`.  Returns the final registry state and
`ridge_idx_orbits`. -/
def registryAll (canon : RanksT → RanksT) (vm : List (Nat → Nat)) :
    RegState → List (List Nat × List (List RanksT)) →
      RegState × List (List (List Nat))
  | st, [] => (st, [])
  | st, (hpv, rr) :: rest =>
    let r := regOrbitRow canon vm hpv st rr
    let s := registryAll canon vm r.1 rest
    (s.1, r.2 :: s.2)

/-- The `faceting_subdim` pipeline at rank 3, up to the arrays consumed
by its combination search (source lines 90-424): pair orbits, hyperplane
enumeration, per-orbit stabilizers and the rank-2 recursion, the ridge
registry, and `f_counts`.  `canon` abstracts the external
`element_sort_strong`. -/
def subdimR3 {σ : Type} (geo : HPGeo σ) (n : Nat) (vm : List (Nat → Nat))
    (keepOpt : Option (Nat → Nat → Bool)) (canon : RanksT → RanksT) :
    Except String CombData :=
  match subHyperplaneStage geo n 3 ((n + 1) ^ 3 + 1) vm keepOpt
      (pairOrbits n vm (keepOf keepOpt)) ⟨[], []⟩ with
  | .error e => .error e
  | .ok st =>
    let hpvs := st.orbits.map (fun o => o.2.headD [])
    let subs := hpvs.map (fun hpv =>
      facetingSubdimRank2 ((localStabilizer vm hpv).map permOf))
    let reg := registryAll canon vm ⟨[], [], 0⟩ (hpvs.zip (subs.map (fun s => s.2.2)))
    .ok { lens := subs.map (fun s => s.1.length),
          ridgeIdxs := subs.map (fun s => s.1.map (fun q => q.2)),
          ridgeIdxOrbits := reg.2,
          ffCounts := subs.map (fun s => s.2.1),
          fCounts := st.orbits.map (fun o => o.1.length),
          ridgeCounts := reg.1.counts }

/-! ### Concrete data for the coverage-division counterexample (C2) -/

/-- Local (in-hyperplane) coordinates of a triangle in the plane. -/
def triPts : List (Int × Int) := [(0, 0), (1, 0), (0, 1)]

/-- Exact collinearity of three points (zero cross product).  Modelled
from the spec: `distance < EPS` against the subspace spanned by two of
the points. -/
def collinear3 (a b c : Int × Int) : Bool :=
  decide ((b.1 - a.1) * (c.2 - a.2) - (b.2 - a.2) * (c.1 - a.1) = 0)

/-- The geometry oracle over `triPts`: a subspace is named by its two
defining vertex indices; it is a hyperplane of the plane (a line) when
the two points differ, and membership is collinearity. -/
def triGeo : HPGeo (Nat × Nat) :=
  { fromPts := fun l => (l.getD 0 0, l.getD 1 0),
    isHP := fun p => decide (triPts.getD p.1 (0, 0) ≠ triPts.getD p.2 (0, 0)),
    onPlane := fun p c =>
      collinear3 (triPts.getD p.1 (0, 0)) (triPts.getD p.2 (0, 0))
        (triPts.getD c (0, 0)) }

/-- A legal but NON-closed local vertex-map table: the identity and the
3-cycle `(0 1 2)` without its square.  A table of this shape reaches
`faceting_subdim` as `new_stabilizer` when a rank-4 `faceting` call is
made with a user-supplied `GroupEnum::VertexMap` table that is not closed
under composition — the table type admits this, and the spec notes such a
violation is never detected or reported. -/
def triMap : List (Nat → Nat) := [permOf [0, 1, 2], permOf [1, 2, 0]]

/-- The combination-search arrays the rank-3 pipeline computes on the
triangle under `triMap`: two line orbits of sizes 2 and 1, one possible
facet (a dyad) each, and two virtual-edge ridge orbits of sizes 2 and
1. -/
def triCombData : CombData :=
  { lens := [1, 1],
    ridgeIdxs := [[[(0, 0), (1, 0)]], [[(0, 0), (1, 0)]]],
    ridgeIdxOrbits := [[[0], [0]], [[0], [1]]],
    ffCounts := [[1, 1], [1, 1]],
    fCounts := [2, 1],
    ridgeCounts := [2, 1] }

theorem idxOf_isSome_of_mem {l : List Nat} {x : Nat} (hx : x ∈ l) :
    (idxOf? l x).isSome := by
  induction l with
  | nil => cases hx
  | cons a l ih =>
    by_cases hax : a = x
    · simp [idxOf?, hax]
    · rcases List.mem_cons.1 hx with h | h
      · exact absurd h.symm hax
      · simp only [idxOf?, if_neg hax]
        have := ih h
        cases hlk : idxOf? l x with
        | none => rw [hlk] at this; simp at this
        | some k => simp [hlk]

theorem idxOf_getD {l : List Nat} (hnd : l.Nodup) :
    ∀ b, b < l.length → idxOf? l (l.getD b 0) = some b := by
  induction l with
  | nil => intro b hb; simp at hb
  | cons a l ih =>
    intro b hb
    cases b with
    | zero => simp [idxOf?]
    | succ b =>
      have hb' : b < l.length := by simpa using hb
      have hmem : l.getD b 0 ∈ l := by
        rw [List.getD_eq_getElem l 0 hb']
        exact List.getElem_mem hb'
      have hne : a ≠ l.getD b 0 := fun h => (List.nodup_cons.1 hnd).1 (h ▸ hmem)
      simp only [List.getD_cons_succ, idxOf?, if_neg hne]
      rw [ih (List.nodup_cons.1 hnd).2 b hb']
      rfl

end Faceting

namespace Faceting

/-- C10: if row 0 of the supplied vertex map is the identity permutation
and the hyperplane's vertex list is strictly sorted (as it is by
construction at both call sites — the list is collected in increasing
index order), then the stabilizer computed for the orbit's representative
is non-empty with its first row acting as the identity on the hyperplane's
vertex list, and every `map_back.get(...).unwrap()` lookup succeeds, so no
indexing or unwrap panics. -/
theorem stabilizer_lookups_safe (row0 : Nat → Nat) (rest : List (Nat → Nat))
    (hpv : List Nat) (hrow0 : ∀ v, row0 v = v)
    (hsort : List.Sorted (· < ·) hpv) :
    (stabilizerOf (row0 :: rest) hpv).head? = some hpv ∧
    (∀ b, b < hpv.length → idxOf? hpv (hpv.getD b 0) = some b) ∧
    (∀ slice ∈ stabilizerOf (row0 :: rest) hpv, ∀ x ∈ slice,
      (idxOf? hpv x).isSome) := by
  have hmapid : hpv.map row0 = hpv := by
    have h : ∀ x ∈ hpv, row0 x = x := fun x _ => hrow0 x
    rw [List.map_congr_left h]
    exact List.map_id' hpv
  have hsorted_le : List.Sorted (· ≤ ·) hpv := hsort.imp le_of_lt
  have hself : List.insertionSort (· ≤ ·) hpv = hpv :=
    List.Sorted.insertionSort_eq hsorted_le
  have hnd : hpv.Nodup := hsort.imp fun h => ne_of_lt h
  refine ⟨?_, idxOf_getD hnd, ?_⟩
  · simp only [stabilizerOf, List.filterMap_cons, hmapid, hself, if_pos rfl]
    rfl
  · intro slice hslice x hx
    simp only [stabilizerOf, List.mem_filterMap] at hslice
    obtain ⟨row, _, hrow⟩ := hslice
    split at hrow
    · rename_i hsorteq
      have hslice_eq : slice = hpv.map row := by
        have := hrow
        injection this with h
        exact h.symm
      have hperm : List.Perm (List.insertionSort (· ≤ ·) (hpv.map row)) (hpv.map row) :=
        List.perm_insertionSort _ _
      have hxhpv : x ∈ hpv := by
        rw [hslice_eq] at hx
        have hmem := hperm.mem_iff.2 hx
        rw [hsorteq] at hmem
        exact hmem
      exact idxOf_isSome_of_mem hxhpv
    · cases hrow

/-- Witness for `stabilizer_lookups_safe` at the identity-only map and the
vertex list `[0, 2, 5]`. -/
theorem stabilizer_lookups_safe_witness :
    (stabilizerOf [fun v => v] [0, 2, 5]).head? = some [0, 2, 5] ∧
    (∀ b, b < ([0, 2, 5] : List Nat).length →
      idxOf? [0, 2, 5] (([0, 2, 5] : List Nat).getD b 0) = some b) ∧
    (∀ slice ∈ stabilizerOf [fun v => v] [0, 2, 5], ∀ x ∈ slice,
      (idxOf? [0, 2, 5] x).isSome) :=
  stabilizer_lookups_safe (fun v => v) [] [0, 2, 5] (fun _ => rfl)
    (by simp [List.Sorted])

theorem inOrbit_refl {vm} (hG : IsGroupTable vm) (a : Nat) : inOrbit vm a a := by
  obtain ⟨e, he, hid⟩ := hG.id_mem
  exact ⟨e, he, hid a⟩

theorem inOrbit_symm {vm} (hG : IsGroupTable vm) {a b : Nat}
    (h : inOrbit vm a b) : inOrbit vm b a := by
  obtain ⟨g, hg, hgab⟩ := h
  obtain ⟨g', hg', hgi, _⟩ := hG.inv_mem g hg
  exact ⟨g', hg', by rw [← hgab, hgi]⟩

theorem inOrbit_trans {vm} (hG : IsGroupTable vm) {a b c : Nat}
    (h₁ : inOrbit vm a b) (h₂ : inOrbit vm b c) : inOrbit vm a c := by
  obtain ⟨g, hg, hgab⟩ := h₁
  obtain ⟨h, hh, hhbc⟩ := h₂
  obtain ⟨k, hk, hkc⟩ := hG.comp_mem h hh g hg
  exact ⟨k, hk, by rw [hkc, hgab, hhbc]⟩

theorem orbitStep_checked_mem (v : Nat) :
    ∀ (rows : List (Nat → Nat)) (ch : List Nat) (x : Nat),
      x ∈ (orbitStep v rows ch).2 ↔ x ∈ ch ∨ x ∈ (orbitStep v rows ch).1 := by
  intro rows
  induction rows with
  | nil => intro ch x; simp [orbitStep]
  | cons row rest ih =>
    intro ch x
    simp only [orbitStep]
    by_cases hc : row v ∈ ch
    · simp only [if_pos hc]
      exact ih ch x
    · simp only [if_neg hc]
      rw [ih (row v :: ch) x]
      simp only [List.mem_cons]
      tauto

theorem orbitStep_pushed_mem (v : Nat) :
    ∀ (rows : List (Nat → Nat)) (ch : List Nat) (x : Nat),
      x ∈ (orbitStep v rows ch).1 ↔ (∃ g ∈ rows, g v = x) ∧ x ∉ ch := by
  intro rows
  induction rows with
  | nil => intro ch x; simp [orbitStep]
  | cons row rest ih =>
    intro ch x
    simp only [orbitStep]
    by_cases hc : row v ∈ ch
    · simp only [if_pos hc]
      rw [ih ch x]
      constructor
      · rintro ⟨⟨g, hg, hgv⟩, hxch⟩
        exact ⟨⟨g, List.mem_cons_of_mem _ hg, hgv⟩, hxch⟩
      · rintro ⟨⟨g, hg, hgv⟩, hxch⟩
        rcases List.mem_cons.1 hg with rfl | hg'
        · exact absurd (hgv ▸ hc) hxch
        · exact ⟨⟨g, hg', hgv⟩, hxch⟩
    · simp only [if_neg hc, List.mem_cons]
      rw [ih (row v :: ch) x]
      constructor
      · rintro (rfl | ⟨⟨g, hg, hgv⟩, hxch⟩)
        · exact ⟨⟨row, Or.inl rfl, rfl⟩, hc⟩
        · refine ⟨⟨g, Or.inr hg, hgv⟩, ?_⟩
          intro hx
          exact hxch (List.mem_cons_of_mem _ hx)
      · rintro ⟨⟨g, hg, hgv⟩, hxch⟩
        rcases hg with rfl | hg'
        · exact Or.inl hgv.symm
        · by_cases hx : x = row v
          · exact Or.inl hx
          · exact Or.inr ⟨⟨g, hg', hgv⟩, by
              simp only [List.mem_cons]
              tauto⟩

theorem orbitStep_nodup (v : Nat) :
    ∀ (rows : List (Nat → Nat)) (ch : List Nat), (orbitStep v rows ch).1.Nodup := by
  intro rows
  induction rows with
  | nil => intro ch; simp [orbitStep]
  | cons row rest ih =>
    intro ch
    simp only [orbitStep]
    by_cases hc : row v ∈ ch
    · simp only [if_pos hc]
      exact ih ch
    · simp only [if_neg hc]
      refine List.nodup_cons.2 ⟨?_, ih (row v :: ch)⟩
      intro hmem
      have := (orbitStep_pushed_mem v rest (row v :: ch) (row v)).1 hmem
      exact this.2 (List.mem_cons_self _ _)

/-- When the processed vertex is unchecked and the checked set is
map-closed, the discovered orbit is the full group orbit. -/
theorem orbitStep_full {vm : List (Nat → Nat)} (hG : IsGroupTable vm)
    {v : Nat} {ch : List Nat} (hv : v ∉ ch) (hcl : MapClosed vm ch) :
    ∀ x, x ∈ (orbitStep v vm ch).1 ↔ inOrbit vm v x := by
  intro x
  rw [orbitStep_pushed_mem]
  constructor
  · rintro ⟨⟨g, hg, hgv⟩, _⟩
    exact ⟨g, hg, hgv⟩
  · rintro ⟨g, hg, hgv⟩
    refine ⟨⟨g, hg, hgv⟩, ?_⟩
    intro hx
    obtain ⟨g', hg', hgi, _⟩ := hG.inv_mem g hg
    have := hcl x hx g' hg'
    rw [← hgv, hgi] at this
    exact hv this

theorem vertexOrbitsAux_spec {vm : List (Nat → Nat)} (hG : IsGroupTable vm) :
    ∀ (vs ch : List Nat), MapClosed vm ch →
      (∀ o ∈ vertexOrbitsAux vm vs ch, o.Nodup ∧ (∀ x ∈ o, x ∉ ch) ∧
        ∃ w, ∀ x, x ∈ o ↔ inOrbit vm w x) ∧
      List.Pairwise (fun o₁ o₂ => ∀ x ∈ o₁, x ∉ o₂) (vertexOrbitsAux vm vs ch) ∧
      (∀ v ∈ vs, v ∈ ch ∨ ∃ o ∈ vertexOrbitsAux vm vs ch, v ∈ o) := by
  intro vs
  induction vs with
  | nil => intro ch _; simp [vertexOrbitsAux]
  | cons v vs ih =>
    intro ch hcl
    by_cases hv : v ∈ ch
    · simp only [vertexOrbitsAux, if_pos hv]
      obtain ⟨h1, h2, h3⟩ := ih ch hcl
      refine ⟨h1, h2, ?_⟩
      intro u hu
      rcases List.mem_cons.1 hu with rfl | hu'
      · exact Or.inl hv
      · exact h3 u hu'
    · simp only [vertexOrbitsAux, if_neg hv]
      have horb : ∀ x, x ∈ (orbitStep v vm ch).1 ↔ inOrbit vm v x :=
        orbitStep_full hG hv hcl
      have hch2 : ∀ x, x ∈ (orbitStep v vm ch).2 ↔ x ∈ ch ∨ x ∈ (orbitStep v vm ch).1 :=
        orbitStep_checked_mem v vm ch
      have hcl' : MapClosed vm (orbitStep v vm ch).2 := by
        intro x hx g hg
        rw [hch2] at hx ⊢
        rcases hx with hx | hx
        · exact Or.inl (hcl x hx g hg)
        · right
          rw [horb] at hx ⊢
          exact inOrbit_trans hG hx ⟨g, hg, rfl⟩
      obtain ⟨h1, h2, h3⟩ := ih (orbitStep v vm ch).2 hcl'
      refine ⟨?_, ?_, ?_⟩
      · intro o ho
        rcases List.mem_cons.1 ho with rfl | ho'
        · refine ⟨orbitStep_nodup v vm ch, ?_, ⟨v, horb⟩⟩
          intro x hx
          exact ((orbitStep_pushed_mem v vm ch x).1 hx).2
        · obtain ⟨hn, hdis, hw⟩ := h1 o ho'
          refine ⟨hn, ?_, hw⟩
          intro x hx hxch
          exact hdis x hx ((hch2 x).2 (Or.inl hxch))
      · refine List.pairwise_cons.2 ⟨?_, h2⟩
        intro o ho x hx
        intro hxo
        exact (h1 o ho).2.1 x hxo ((hch2 x).2 (Or.inr hx))
      · intro u hu
        rcases List.mem_cons.1 hu with huv | hu'
        · refine Or.inr ⟨(orbitStep v vm ch).1, List.mem_cons_self _ _, (horb u).2 ?_⟩
          rw [huv]
          exact inOrbit_refl hG v
        · rcases h3 u hu' with hu2 | ⟨o, ho, huo⟩
          · rcases (hch2 u).1 hu2 with h | h
            · exact Or.inl h
            · exact Or.inr ⟨(orbitStep v vm ch).1, List.mem_cons_self _ _, h⟩
          · exact Or.inr ⟨o, List.mem_cons_of_mem _ ho, huo⟩

theorem pairStep_sub (a b : Nat) :
    ∀ (rows : List (Nat → Nat)) (ch : List (Nat × Nat)) (p : Nat × Nat),
      p ∈ ch → p ∈ (pairStep a b rows ch).2 := by
  intro rows
  induction rows with
  | nil => intro ch p hp; exact hp
  | cons row rest ih =>
    intro ch p hp
    simp only [pairStep]
    by_cases hc : (row a, row b) ∈ ch
    · simp only [if_pos hc]; exact ih ch p hp
    · simp only [if_neg hc]
      exact ih _ p (List.mem_cons_of_mem _ (List.mem_cons_of_mem _ hp))

theorem pairStep_checked_mem (a b : Nat) :
    ∀ (rows : List (Nat → Nat)) (ch : List (Nat × Nat)) (p : Nat × Nat),
      p ∈ (pairStep a b rows ch).2 ↔
        p ∈ ch ∨ p ∈ (pairStep a b rows ch).1 ∨ p.swap ∈ (pairStep a b rows ch).1 := by
  intro rows
  induction rows with
  | nil => intro ch p; simp [pairStep]
  | cons row rest ih =>
    intro ch p
    simp only [pairStep]
    by_cases hc : (row a, row b) ∈ ch
    · simp only [if_pos hc]; exact ih ch p
    · simp only [if_neg hc]
      rw [ih ((row a, row b) :: (row a, row b).swap :: ch) p]
      simp only [List.mem_cons]
      have hswapiff : p = (row a, row b).swap ↔ p.swap = (row a, row b) := by
        constructor
        · intro h; rw [h]; simp
        · intro h; rw [← h]; simp
      rw [hswapiff]
      tauto

theorem pairStep_pushed (a b : Nat) :
    ∀ (rows : List (Nat → Nat)) (ch : List (Nat × Nat)), SymCh ch →
      ∀ p ∈ (pairStep a b rows ch).1,
        (∃ g ∈ rows, (g a, g b) = p) ∧ p ∉ ch ∧ p.swap ∉ ch := by
  intro rows
  induction rows with
  | nil => intro ch _ p hp; simp [pairStep] at hp
  | cons row rest ih =>
    intro ch hsym p hp
    simp only [pairStep] at hp
    by_cases hc : (row a, row b) ∈ ch
    · simp only [if_pos hc] at hp
      obtain ⟨⟨g, hg, hgv⟩, h1, h2⟩ := ih ch hsym p hp
      exact ⟨⟨g, List.mem_cons_of_mem _ hg, hgv⟩, h1, h2⟩
    · simp only [if_neg hc] at hp
      have hsym' : SymCh ((row a, row b) :: (row a, row b).swap :: ch) := by
        intro q hq
        rcases List.mem_cons.1 hq with rfl | hq'
        · exact List.mem_cons_of_mem _ (List.mem_cons_self _ _)
        · rcases List.mem_cons.1 hq' with rfl | hq''
          · exact List.mem_cons_self _ _
          · exact List.mem_cons_of_mem _ (List.mem_cons_of_mem _ (hsym q hq''))
      rcases List.mem_cons.1 hp with rfl | hp'
      · refine ⟨⟨row, List.mem_cons_self _ _, rfl⟩, hc, ?_⟩
        intro hsw
        exact hc (by simpa using hsym _ hsw)
      · obtain ⟨⟨g, hg, hgv⟩, h1, h2⟩ := ih _ hsym' p hp'
        refine ⟨⟨g, List.mem_cons_of_mem _ hg, hgv⟩, ?_, ?_⟩
        · exact fun hx => h1 (List.mem_cons_of_mem _ (List.mem_cons_of_mem _ hx))
        · exact fun hx => h2 (List.mem_cons_of_mem _ (List.mem_cons_of_mem _ hx))

theorem pairStep_covers (a b : Nat) :
    ∀ (rows : List (Nat → Nat)) (ch : List (Nat × Nat)),
      ∀ g ∈ rows, (g a, g b) ∈ (pairStep a b rows ch).2 := by
  intro rows
  induction rows with
  | nil => intro ch g hg; cases hg
  | cons row rest ih =>
    intro ch g hg
    simp only [pairStep]
    by_cases hc : (row a, row b) ∈ ch
    · simp only [if_pos hc]
      rcases List.mem_cons.1 hg with rfl | hg'
      · exact pairStep_sub a b rest ch _ hc
      · exact ih ch g hg'
    · simp only [if_neg hc]
      rcases List.mem_cons.1 hg with rfl | hg'
      · exact pairStep_sub a b rest _ _ (List.mem_cons_self _ _)
      · exact ih _ g hg'

theorem pairStep_pairwise (a b : Nat) :
    ∀ (rows : List (Nat → Nat)) (ch : List (Nat × Nat)), SymCh ch →
      List.Pairwise (fun p q => q ≠ p ∧ q ≠ p.swap) (pairStep a b rows ch).1 := by
  intro rows
  induction rows with
  | nil => intro ch _; simp [pairStep]
  | cons row rest ih =>
    intro ch hsym
    simp only [pairStep]
    by_cases hc : (row a, row b) ∈ ch
    · simp only [if_pos hc]; exact ih ch hsym
    · simp only [if_neg hc]
      have hsym' : SymCh ((row a, row b) :: (row a, row b).swap :: ch) := by
        intro q hq
        rcases List.mem_cons.1 hq with rfl | hq'
        · exact List.mem_cons_of_mem _ (List.mem_cons_self _ _)
        · rcases List.mem_cons.1 hq' with rfl | hq''
          · exact List.mem_cons_self _ _
          · exact List.mem_cons_of_mem _ (List.mem_cons_of_mem _ (hsym q hq''))
      refine List.pairwise_cons.2 ⟨?_, ih _ hsym'⟩
      intro q hq
      obtain ⟨_, h1, h2⟩ := pairStep_pushed a b rest _ hsym' q hq
      constructor
      · intro hqe
        exact h1 (hqe ▸ List.mem_cons_self _ _)
      · intro hqe
        refine h1 ?_
        rw [hqe]
        exact List.mem_cons_of_mem _ (List.mem_cons_self _ _)

theorem pairStep_sym (a b : Nat) :
    ∀ (rows : List (Nat → Nat)) (ch : List (Nat × Nat)), SymCh ch →
      SymCh (pairStep a b rows ch).2 := by
  intro rows
  induction rows with
  | nil => intro ch h; exact h
  | cons row rest ih =>
    intro ch hsym
    simp only [pairStep]
    by_cases hc : (row a, row b) ∈ ch
    · simp only [if_pos hc]; exact ih ch hsym
    · simp only [if_neg hc]
      refine ih _ ?_
      intro q hq
      rcases List.mem_cons.1 hq with rfl | hq'
      · exact List.mem_cons_of_mem _ (List.mem_cons_self _ _)
      · rcases List.mem_cons.1 hq' with rfl | hq''
        · exact List.mem_cons_self _ _
        · exact List.mem_cons_of_mem _ (List.mem_cons_of_mem _ (hsym q hq''))

/-- Expanding an unchecked pair under the full group table yields its full
group orbit (up to swapping), and keeps the checked set symmetric and
map-closed. -/
theorem pairStep_orbit {vm : List (Nat → Nat)} (hG : IsGroupTable vm)
    {a b : Nat} {ch : List (Nat × Nat)}
    (hsym : SymCh ch) (hcl : PairClosed vm ch) (h0 : (a, b) ∉ ch) :
    IsPairOrbit vm a b (pairStep a b vm ch).1 ∧
    SymCh (pairStep a b vm ch).2 ∧ PairClosed vm (pairStep a b vm ch).2 := by
  have himg : ∀ g ∈ vm, (g a, g b) ∉ ch := by
    intro g hg hmem
    obtain ⟨g', hg', hgi, _⟩ := hG.inv_mem g hg
    have h2 := hcl _ hmem g' hg'
    simp only [hgi] at h2
    exact h0 h2
  have hsym2 : SymCh (pairStep a b vm ch).2 := pairStep_sym a b vm ch hsym
  refine ⟨⟨?_, ?_⟩, hsym2, ?_⟩
  · intro p hp
    exact ((pairStep_pushed a b vm ch hsym p hp).1)
  · intro g hg
    have hin2 : (g a, g b) ∈ (pairStep a b vm ch).2 := pairStep_covers a b vm ch g hg
    rcases (pairStep_checked_mem a b vm ch (g a, g b)).1 hin2 with h | h | h
    · exact absurd h (himg g hg)
    · exact Or.inl h
    · right
      simpa using h
  · intro p hp g hg
    rcases (pairStep_checked_mem a b vm ch p).1 hp with h | h | h
    · exact pairStep_sub a b vm ch _ (hcl p h g hg)
    · obtain ⟨h', hh', hph⟩ := (pairStep_pushed a b vm ch hsym p h).1
      obtain ⟨k, hk, hkf⟩ := hG.comp_mem g hg h' hh'
      have : (g p.1, g p.2) = (k a, k b) := by
        rw [← hph]
        simp [hkf]
      rw [this]
      exact pairStep_covers a b vm ch k hk
    · obtain ⟨h', hh', hph⟩ := (pairStep_pushed a b vm ch hsym p.swap h).1
      obtain ⟨k, hk, hkf⟩ := hG.comp_mem g hg h' hh'
      have hp2 : (g p.1, g p.2) = (k a, k b).swap := by
        have h1 : h' a = p.2 := by
          have := congrArg Prod.fst hph
          simpa using this
        have h2 : h' b = p.1 := by
          have := congrArg Prod.snd hph
          simpa using this
        simp [Prod.swap, hkf, h1, h2]
      rw [hp2]
      exact hsym2 _ (pairStep_covers a b vm ch k hk)

theorem pairOrbitsInner_spec {vm : List (Nat → Nat)} (hG : IsGroupTable vm)
    (keep : Nat → Nat → Bool) (rep : Nat) :
    ∀ (xs : List Nat) (ch : List (Nat × Nat)), SymCh ch → PairClosed vm ch →
      SymCh (pairOrbitsInner vm keep rep xs ch).2 ∧
      PairClosed vm (pairOrbitsInner vm keep rep xs ch).2 ∧
      (∀ p ∈ ch, p ∈ (pairOrbitsInner vm keep rep xs ch).2) ∧
      (∀ o ∈ (pairOrbitsInner vm keep rep xs ch).1,
        (∃ x₀, x₀ ≠ rep ∧ keep rep x₀ = true ∧ IsPairOrbit vm rep x₀ o) ∧
        List.Pairwise (fun p q => q ≠ p ∧ q ≠ p.swap) o ∧
        (∀ p ∈ o, p ∉ ch) ∧
        (∀ p ∈ o, p ∈ (pairOrbitsInner vm keep rep xs ch).2)) ∧
      List.Pairwise (fun o₁ o₂ => ∀ p ∈ o₁, p ∉ o₂ ∧ p.swap ∉ o₂)
        (pairOrbitsInner vm keep rep xs ch).1 ∧
      (∀ x ∈ xs, x ≠ rep → keep rep x = true →
        (rep, x) ∈ (pairOrbitsInner vm keep rep xs ch).2) ∧
      (∀ p, p ∈ (pairOrbitsInner vm keep rep xs ch).2 →
        p ∈ ch ∨ ∃ o ∈ (pairOrbitsInner vm keep rep xs ch).1, p ∈ o ∨ p.swap ∈ o) := by
  intro xs
  induction xs with
  | nil =>
    intro ch hsym hcl
    refine ⟨hsym, hcl, ?_, ?_, ?_, ?_, ?_⟩ <;> simp [pairOrbitsInner]
  | cons x xs ih =>
    intro ch hsym hcl
    by_cases hcond : x ≠ rep ∧ (rep, x) ∉ ch
    · by_cases hkeep : keep rep x = true
      · -- expansion case
        simp only [pairOrbitsInner, if_pos hcond, if_pos hkeep]
        obtain ⟨horb, hsym2, hcl2⟩ := pairStep_orbit hG hsym hcl hcond.2
        obtain ⟨ihsym, ihcl, ihmono, ihorb, ihpw, ihcov, ihchar⟩ :=
          ih (pairStep rep x vm ch).2 hsym2 hcl2
        have hpmem2 : ∀ p ∈ (pairStep rep x vm ch).1, p ∈ (pairStep rep x vm ch).2 := by
          intro p hp
          exact (pairStep_checked_mem rep x vm ch p).2 (Or.inr (Or.inl hp))
        refine ⟨ihsym, ihcl, ?_, ?_, ?_, ?_, ?_⟩
        · intro p hp
          exact ihmono p (pairStep_sub rep x vm ch p hp)
        · intro o ho
          rcases List.mem_cons.1 ho with rfl | ho'
          · refine ⟨⟨x, hcond.1, hkeep, horb⟩, pairStep_pairwise rep x vm ch hsym, ?_, ?_⟩
            · intro p hp
              exact ((pairStep_pushed rep x vm ch hsym p hp).2.1)
            · intro p hp
              exact ihmono p (hpmem2 p hp)
          · obtain ⟨hA, hB, hC, hD⟩ := ihorb o ho'
            refine ⟨hA, hB, ?_, hD⟩
            intro p hp hpch
            exact hC p hp (pairStep_sub rep x vm ch p hpch)
        · refine List.pairwise_cons.2 ⟨?_, ihpw⟩
          intro o ho p hp
          obtain ⟨_, _, hC, _⟩ := ihorb o ho
          constructor
          · intro hpo
            exact hC p hpo (hpmem2 p hp)
          · intro hpo
            exact hC p.swap hpo (hsym2 p (hpmem2 p hp))
        · intro y hy hyrep hykeep
          rcases List.mem_cons.1 hy with rfl | hy'
          · obtain ⟨e, he, hid⟩ := hG.id_mem
            have : ((rep : Nat), y) = (e rep, e y) := by simp [hid]
            rw [this]
            exact ihmono _ (pairStep_covers rep y vm ch e he)
          · exact ihcov y hy' hyrep hykeep
        · intro p hp
          rcases ihchar p hp with h | ⟨o, ho, hpo⟩
          · rcases (pairStep_checked_mem rep x vm ch p).1 h with h' | h' | h'
            · exact Or.inl h'
            · exact Or.inr ⟨_, List.mem_cons_self _ _, Or.inl h'⟩
            · exact Or.inr ⟨_, List.mem_cons_self _ _, Or.inr h'⟩
          · exact Or.inr ⟨o, List.mem_cons_of_mem _ ho, hpo⟩
      · -- filtered out by keep
        simp only [pairOrbitsInner, if_pos hcond, if_neg hkeep]
        obtain ⟨ihsym, ihcl, ihmono, ihorb, ihpw, ihcov, ihchar⟩ := ih ch hsym hcl
        refine ⟨ihsym, ihcl, ihmono, ihorb, ihpw, ?_, ihchar⟩
        intro y hy hyrep hykeep
        rcases List.mem_cons.1 hy with rfl | hy'
        · exact absurd hykeep hkeep
        · exact ihcov y hy' hyrep hykeep
    · -- skipped (x = rep or pair already checked)
      simp only [pairOrbitsInner, if_neg hcond]
      obtain ⟨ihsym, ihcl, ihmono, ihorb, ihpw, ihcov, ihchar⟩ := ih ch hsym hcl
      refine ⟨ihsym, ihcl, ihmono, ihorb, ihpw, ?_, ihchar⟩
      intro y hy hyrep hykeep
      rcases List.mem_cons.1 hy with rfl | hy'
      · rcases not_and_or.1 hcond with h | h
        · exact absurd hyrep (by simpa using h)
        · exact ihmono _ (not_not.1 h)
      · exact ihcov y hy' hyrep hykeep

theorem pairOrbitsOuter_spec {vm : List (Nat → Nat)} (hG : IsGroupTable vm)
    (keep : Nat → Nat → Bool) (n : Nat) :
    ∀ (os : List (List Nat)) (ch : List (Nat × Nat)), SymCh ch → PairClosed vm ch →
      (∀ o ∈ pairOrbitsOuter n vm keep os ch,
        (∃ r x₀, x₀ ≠ r ∧ keep r x₀ = true ∧ IsPairOrbit vm r x₀ o) ∧
        List.Pairwise (fun p q => q ≠ p ∧ q ≠ p.swap) o ∧
        (∀ p ∈ o, p ∉ ch)) ∧
      List.Pairwise (fun o₁ o₂ => ∀ p ∈ o₁, p ∉ o₂ ∧ p.swap ∉ o₂)
        (pairOrbitsOuter n vm keep os ch) ∧
      (∀ orb ∈ os, ∀ x, x ∈ List.range n → x ≠ orb.headD 0 →
        keep (orb.headD 0) x = true →
        (orb.headD 0, x) ∈ ch ∨
        ∃ o ∈ pairOrbitsOuter n vm keep os ch,
          (orb.headD 0, x) ∈ o ∨ (x, orb.headD 0) ∈ o) := by
  intro os
  induction os with
  | nil =>
    intro ch _ _
    refine ⟨?_, ?_, ?_⟩ <;> simp [pairOrbitsOuter]
  | cons orb orbs ih =>
    intro ch hsym hcl
    simp only [pairOrbitsOuter]
    obtain ⟨isym, icl, imono, iorb, ipw, icov, ichar⟩ :=
      pairOrbitsInner_spec hG keep (orb.headD 0) (List.range n) ch hsym hcl
    obtain ⟨jorb, jpw, jcov⟩ :=
      ih (pairOrbitsInner vm keep (orb.headD 0) (List.range n) ch).2 isym icl
    refine ⟨?_, ?_, ?_⟩
    · intro o ho
      rcases List.mem_append.1 ho with ho' | ho'
      · obtain ⟨⟨x₀, hx₀, hk₀, horb₀⟩, hopw, hnch, _⟩ := iorb o ho'
        exact ⟨⟨orb.headD 0, x₀, hx₀, hk₀, horb₀⟩, hopw, hnch⟩
      · obtain ⟨hA, hB, hC⟩ := jorb o ho'
        exact ⟨hA, hB, fun p hp hpch => hC p hp (imono p hpch)⟩
    · refine List.pairwise_append.2 ⟨ipw, jpw, ?_⟩
      intro o₁ h₁ o₂ h₂ p hp
      obtain ⟨_, _, _, hD⟩ := iorb o₁ h₁
      obtain ⟨_, _, hC⟩ := jorb o₂ h₂
      exact ⟨fun hpo => hC p hpo (hD p hp),
        fun hpo => hC p.swap hpo (isym p (hD p hp))⟩
    · intro orb' horb' x hx hxne hxkeep
      rcases List.mem_cons.1 horb' with rfl | horb''
      · rcases ichar _ (icov x hx hxne hxkeep) with h | ⟨o, ho, hcase⟩
        · exact Or.inl h
        · exact Or.inr ⟨o, List.mem_append.2 (Or.inl ho), by simpa using hcase⟩
      · rcases jcov orb' horb'' x hx hxne hxkeep with h | ⟨o, ho, hcase⟩
        · rcases ichar _ h with h' | ⟨o, ho, hcase⟩
          · exact Or.inl h'
          · exact Or.inr ⟨o, List.mem_append.2 (Or.inl ho), by simpa using hcase⟩
        · exact Or.inr ⟨o, List.mem_append.2 (Or.inr ho), hcase⟩

theorem headD_mem {o : List Nat} (h : o ≠ []) : o.headD 0 ∈ o := by
  cases o with
  | nil => exact absurd rfl h
  | cons a l => exact List.mem_cons_self _ _

/-- In a pairwise-disjoint list of pair orbits, an unordered pair lying in
some orbit lies in exactly one list entry. -/
theorem countP_pair_eq_one {os : List (List (Nat × Nat))} {a b : Nat}
    (hpw : List.Pairwise (fun o₁ o₂ => ∀ p ∈ o₁, p ∉ o₂ ∧ p.swap ∉ o₂) os)
    (hex : ∃ o ∈ os, (a, b) ∈ o ∨ (b, a) ∈ o) :
    os.countP (fun o => decide ((a, b) ∈ o ∨ (b, a) ∈ o)) = 1 := by
  induction os with
  | nil => obtain ⟨o, ho, _⟩ := hex; cases ho
  | cons o os ih =>
    obtain ⟨hhead, htail⟩ := List.pairwise_cons.1 hpw
    by_cases hvo : (a, b) ∈ o ∨ (b, a) ∈ o
    · rw [List.countP_cons_of_pos _ _ (by simpa using hvo)]
      have hzero : os.countP (fun o => decide ((a, b) ∈ o ∨ (b, a) ∈ o)) = 0 := by
        rw [List.countP_eq_zero]
        intro o' ho'
        simp only [decide_eq_true_eq]
        rintro (h | h)
        · rcases hvo with hv | hv
          · exact (hhead o' ho' _ hv).1 h
          · exact (hhead o' ho' _ hv).2 (by simpa using h)
        · rcases hvo with hv | hv
          · exact (hhead o' ho' _ hv).2 (by simpa using h)
          · exact (hhead o' ho' _ hv).1 h
      omega
    · rw [List.countP_cons_of_neg _ _ (by simpa using hvo)]
      refine ih htail ?_
      obtain ⟨o', ho', hvo'⟩ := hex
      rcases List.mem_cons.1 ho' with rfl | h
      · exact absurd hvo' hvo
      · exact ⟨o', h, hvo'⟩

/-- In a pairwise-disjoint list of orbits, a vertex lying in some orbit
lies in exactly one list entry. -/
theorem countP_mem_eq_one {os : List (List Nat)} {v : Nat}
    (hpw : List.Pairwise (fun o₁ o₂ => ∀ x ∈ o₁, x ∉ o₂) os)
    (hex : ∃ o ∈ os, v ∈ o) : os.countP (fun o => decide (v ∈ o)) = 1 := by
  induction os with
  | nil => obtain ⟨o, ho, _⟩ := hex; cases ho
  | cons o os ih =>
    obtain ⟨hhead, htail⟩ := List.pairwise_cons.1 hpw
    by_cases hvo : v ∈ o
    · rw [List.countP_cons_of_pos _ _ (by simpa using hvo)]
      have hzero : os.countP (fun o => decide (v ∈ o)) = 0 := by
        rw [List.countP_eq_zero]
        intro o' ho'
        simp only [decide_eq_true_eq]
        exact fun hvo' => hhead o' ho' v hvo hvo'
      omega
    · rw [List.countP_cons_of_neg _ _ (by simpa using hvo)]
      refine ih htail ?_
      obtain ⟨o', ho', hvo'⟩ := hex
      rcases List.mem_cons.1 ho' with rfl | h
      · exact absurd hvo' hvo
      · exact ⟨o', h, hvo'⟩

end Faceting

namespace Faceting

/-- C4: in the rank-2 base case of `faceting_subdim`, if no row of the
local vertex map sends local vertex 0 to local vertex 1 (snub), the call
returns exactly one faceting using the two facet types `(0,0)` and
`(1,0)`, per-orbit counts `[1,1]`, and two distinct single-vertex
virtual-edge ridge templates; if some row sends 0 to 1 (non-snub), it
returns exactly one faceting using the single facet type `(0,0)`, counts
`[2]`, and a single virtual-edge ridge template. -/
theorem rank2_base_case (vm : List (Nat → Nat)) :
    ((∀ row ∈ vm, row 0 ≠ 1) →
      facetingSubdimRank2 vm =
        ([(dyadRanks, [(0, 0), (1, 0)])], [1, 1],
          [[virtualEdge 0], [virtualEdge 1]]) ∧
      virtualEdge 0 ≠ virtualEdge 1) ∧
    ((∃ row ∈ vm, row 0 = 1) →
      facetingSubdimRank2 vm = ([(dyadRanks, [(0, 0)])], [2], [[virtualEdge 0]])) := by
  constructor
  · intro h
    constructor
    · have hany : vm.any (fun row => row 0 = 1) = false := by
        simp only [List.any_eq_false, decide_eq_true_eq]
        exact h
      simp [facetingSubdimRank2, hany]
    · simp [virtualEdge]
  · intro h
    have hany : vm.any (fun row => row 0 = 1) = true := by
      simp only [List.any_eq_true, decide_eq_true_eq]
      exact h
    simp [facetingSubdimRank2, hany]

/-- Witness for `rank2_base_case`: the snub branch at the identity-only
vertex map and the non-snub branch at a map containing the swap row. -/
theorem rank2_base_case_witness :
    (facetingSubdimRank2 [fun v => v] =
        ([(dyadRanks, [(0, 0), (1, 0)])], [1, 1],
          [[virtualEdge 0], [virtualEdge 1]]) ∧
      virtualEdge 0 ≠ virtualEdge 1) ∧
    facetingSubdimRank2 [fun v => v, swapRow] =
      ([(dyadRanks, [(0, 0)])], [2], [[virtualEdge 0]]) :=
  ⟨(rank2_base_case [fun v => v]).1 (by intro row hrow; simp at hrow; subst hrow; simp),
   (rank2_base_case [fun v => v, swapRow]).2 ⟨swapRow, by simp, by simp [swapRow]⟩⟩

theorem swapRow_invol : ∀ v, swapRow (swapRow v) = v := by
  intro v
  by_cases h0 : v = 0
  · simp [swapRow, h0]
  · by_cases h1 : v = 1
    · simp [swapRow, h0, h1]
    · simp [swapRow, h0, h1]

theorem lineMap_group : IsGroupTable lineMap := by
  constructor
  · exact ⟨fun v => v, by simp [lineMap], fun _ => rfl⟩
  · intro g hg h hh
    simp only [lineMap, List.mem_cons, List.mem_singleton, List.not_mem_nil, or_false] at hg hh
    rcases hg with rfl | rfl <;> rcases hh with rfl | rfl
    · exact ⟨fun v => v, by simp [lineMap], fun v => rfl⟩
    · exact ⟨swapRow, by simp [lineMap], fun v => rfl⟩
    · exact ⟨swapRow, by simp [lineMap], fun v => rfl⟩
    · exact ⟨fun v => v, by simp [lineMap], fun v => (swapRow_invol v).symm⟩
  · intro g hg
    simp only [lineMap, List.mem_cons, List.mem_singleton, List.not_mem_nil, or_false] at hg
    rcases hg with rfl | rfl
    · exact ⟨fun v => v, by simp [lineMap], fun _ => rfl, fun _ => rfl⟩
    · exact ⟨swapRow, by simp [lineMap], swapRow_invol, swapRow_invol⟩

/-- C5 counterexample: on three collinear points 0, 1, 3 with the full
closed permutation table `{id, (0 1)}` (a legal `GroupEnum::VertexMap`
input) and edge length 2, the pair `{0, 2}` fails the edge-length filter
(its distance is 3) yet appears in a pair orbit: the filter is applied
only to the orbit representative, and orbit expansion maps the kept pair
`{2, 1}` through the non-distance-preserving row `(0 1)` to `{2, 0}`.
This refutes the claim as stated. -/
theorem pair_filter_counterexample :
    IsGroupTable lineMap ∧
    (∀ a b, lineKeep a b = lineKeep b a) ∧
    lineKeep 2 0 = false ∧
    ∃ o ∈ pairOrbits 3 lineMap lineKeep, (2, 0) ∈ o := by
  refine ⟨lineMap_group, ?_, by decide, ?_⟩
  · intro a b
    simp only [lineKeep, decide_eq_decide]
    omega
  · decide

/-- C5 (amended): provided the supplied vertex map is the full (closed)
permutation table and the edge-length filter is invariant under every row
(as holds whenever the table comes from a symmetry group of the vertex
set, since symmetries preserve distances), orbit decomposition is a
partition: every vertex index below `n` belongs to exactly one vertex
orbit, every unordered vertex pair passing the edge-length filter belongs
to exactly one pair orbit, and pairs failing the edge-length filter appear
in no orbit. -/
theorem orbit_decomposition_partition (n : Nat) (vm : List (Nat → Nat))
    (keep : Nat → Nat → Bool) (hG : IsGroupTable vm)
    (hbound : ∀ g ∈ vm, ∀ v, v < n → g v < n)
    (hkeepsym : ∀ a b, keep a b = keep b a)
    (hkeepinv : ∀ g ∈ vm, ∀ a b, keep (g a) (g b) = keep a b) :
    (∀ v, v < n → (vertexOrbits n vm).countP (fun o => decide (v ∈ o)) = 1) ∧
    (∀ a b, a < n → b < n → a ≠ b → keep a b = true →
      (pairOrbits n vm keep).countP
        (fun o => decide ((a, b) ∈ o ∨ (b, a) ∈ o)) = 1) ∧
    (∀ a b, keep a b = false → ∀ o ∈ pairOrbits n vm keep,
      (a, b) ∉ o ∧ (b, a) ∉ o) := by
  have hMC : MapClosed vm [] := fun x hx => absurd hx (List.not_mem_nil x)
  obtain ⟨vorb, vpw, vcov⟩ := vertexOrbitsAux_spec hG (List.range n) [] hMC
  have hsym0 : SymCh [] := fun p hp => absurd hp (List.not_mem_nil p)
  have hcl0 : PairClosed vm [] := fun p hp => absurd hp (List.not_mem_nil p)
  obtain ⟨porb, ppw, pcov⟩ :=
    pairOrbitsOuter_spec hG keep n (vertexOrbits n vm) [] hsym0 hcl0
  refine ⟨?_, ?_, ?_⟩
  · intro v hv
    rcases vcov v (List.mem_range.2 hv) with h | h
    · exact absurd h (List.not_mem_nil v)
    · exact countP_mem_eq_one vpw h
  · intro a b ha hb hab hkeep
    rcases vcov a (List.mem_range.2 ha) with h | ⟨O, hO, haO⟩
    · exact absurd h (List.not_mem_nil a)
    obtain ⟨hOnd, _, w, hw⟩ := vorb O hO
    have hOne : O ≠ [] := List.ne_nil_of_mem haO
    have hrepO : O.headD 0 ∈ O := headD_mem hOne
    have h1 : inOrbit vm w (O.headD 0) := (hw _).1 hrepO
    have h2 : inOrbit vm w a := (hw a).1 haO
    obtain ⟨g, hg, hga⟩ := inOrbit_trans hG (inOrbit_symm hG h1) h2
    obtain ⟨g', hg', hgi, hgi'⟩ := hG.inv_mem g hg
    have hb' : g' b < n := hbound g' hg' b hb
    have hgb : g (g' b) = b := hgi' b
    have hbrep : g' b ≠ O.headD 0 := by
      intro h
      apply hab
      rw [← hga, ← hgb, h]
    have hkrep : keep (O.headD 0) (g' b) = true := by
      have hk := hkeepinv g hg (O.headD 0) (g' b)
      rw [hga, hgb] at hk
      rw [← hk]
      exact hkeep
    rcases pcov O hO (g' b) (List.mem_range.2 hb') hbrep hkrep with h | ⟨o, ho, hcase⟩
    · exact absurd h (List.not_mem_nil _)
    obtain ⟨⟨r₂, x₂, _, _, omem, ocov⟩, _, _⟩ := porb o ho
    refine countP_pair_eq_one ppw ⟨o, ho, ?_⟩
    rcases hcase with hc | hc
    · obtain ⟨h', hh', hhp⟩ := omem _ hc
      obtain ⟨k, hk, hkf⟩ := hG.comp_mem g hg h' hh'
      have e1 : h' r₂ = O.headD 0 := by
        have := congrArg Prod.fst hhp
        simpa using this
      have e2 : h' x₂ = g' b := by
        have := congrArg Prod.snd hhp
        simpa using this
      have hk1 : k r₂ = a := by rw [hkf, e1, hga]
      have hk2 : k x₂ = b := by rw [hkf, e2, hgb]
      rcases ocov k hk with h | h
      · left; rwa [hk1, hk2] at h
      · right; rwa [hk1, hk2] at h
    · obtain ⟨h', hh', hhp⟩ := omem _ hc
      obtain ⟨k, hk, hkf⟩ := hG.comp_mem g hg h' hh'
      have e1 : h' r₂ = g' b := by
        have := congrArg Prod.fst hhp
        simpa using this
      have e2 : h' x₂ = O.headD 0 := by
        have := congrArg Prod.snd hhp
        simpa using this
      have hk1 : k r₂ = b := by rw [hkf, e1, hgb]
      have hk2 : k x₂ = a := by rw [hkf, e2, hga]
      rcases ocov k hk with h | h
      · right; rwa [hk1, hk2] at h
      · left; rwa [hk1, hk2] at h
  · intro a b hfalse o ho
    obtain ⟨⟨r₂, x₂, _, hk₂, omem, _⟩, _, _⟩ := porb o ho
    constructor
    · intro hmem
      obtain ⟨h', hh', hhp⟩ := omem _ hmem
      have hk := hkeepinv h' hh' r₂ x₂
      have e1 : h' r₂ = a := by
        have := congrArg Prod.fst hhp
        simpa using this
      have e2 : h' x₂ = b := by
        have := congrArg Prod.snd hhp
        simpa using this
      rw [e1, e2] at hk
      rw [hk₂] at hk
      rw [hfalse] at hk
      cases hk
    · intro hmem
      obtain ⟨h', hh', hhp⟩ := omem _ hmem
      have hk := hkeepinv h' hh' r₂ x₂
      have e1 : h' r₂ = b := by
        have := congrArg Prod.fst hhp
        simpa using this
      have e2 : h' x₂ = a := by
        have := congrArg Prod.snd hhp
        simpa using this
      rw [e1, e2] at hk
      rw [hk₂] at hk
      rw [hkeepsym b a] at hk
      rw [hfalse] at hk
      cases hk

/-- Witness for `orbit_decomposition_partition`: two vertices with the
table `{id, (0 1)}` and an always-true filter. -/
theorem orbit_decomposition_partition_witness :
    (∀ v, v < 2 → (vertexOrbits 2 lineMap).countP (fun o => decide (v ∈ o)) = 1) ∧
    (∀ a b, a < 2 → b < 2 → a ≠ b → (fun _ _ => true : Nat → Nat → Bool) a b = true →
      (pairOrbits 2 lineMap (fun _ _ => true)).countP
        (fun o => decide ((a, b) ∈ o ∨ (b, a) ∈ o)) = 1) ∧
    (∀ a b, (fun _ _ => true : Nat → Nat → Bool) a b = false →
      ∀ o ∈ pairOrbits 2 lineMap (fun _ _ => true), (a, b) ∉ o ∧ (b, a) ∉ o) :=
  orbit_decomposition_partition 2 lineMap (fun _ _ => true) lineMap_group
    (by
      intro g hg v hv
      simp only [lineMap, List.mem_cons, List.mem_singleton, List.not_mem_nil,
        or_false] at hg
      rcases hg with rfl | rfl
      · exact hv
      · interval_cases v <;> simp [swapRow])
    (fun _ _ => rfl) (fun g _ _ _ => rfl)

/-! ## C3: top-level faceting of a square panics -/

theorem square_pair_orbits :
    pairOrbits 4 squareMap (keepOf none) =
      [[(0, 1), (1, 2), (2, 3), (3, 0)], [(0, 2), (1, 3)]] := by decide

/-- C3 (code bug): calling `faceting` on a square (4 vertices, ambient
rank 3) with its full dihedral symmetry group of order 8 and no
edge-length constraint does not return the square: it panics.  The
top-level hyperplane enumeration initializes `update = rank - 4` without
the `rank > 3` guard present in `faceting_subdim` (line 659 versus lines
153-156), so at rank 3 `update` wraps to `2^64 - 1` (in debug mode the
subtraction itself panics), and the increment loop then indexes the empty
`new_vertices` at that position.  The panic happens whatever the geometry
oracles return, hence the quantification over `geo`. -/
theorem square_faceting_panics (σ V : Type) (geo : HPGeo σ) (vertices : List V)
    (subdim : List σ × List (List Nat) → SubdimOut)
    (ridgeReg : List (List (List RanksT)) → List (List (List Nat)) × List Nat)
    (canon : RanksT → RanksT → RanksT) (check : RanksT → Bool)
    (noble : Option Nat) (irc : Bool) (steps : Nat) :
    facetingModel σ V geo 4 3 squareMap none vertices subdim ridgeReg canon check
      noble irc steps = .error "index out of bounds" := by
  have h1 : ∀ st : HPState σ,
      hpPerPair geo 4 3 126 squareMap none [(0, 1), (1, 2), (2, 3), (3, 0)] st =
        .error "index out of bounds" := fun st => rfl
  have hstage : hyperplaneStage geo 4 3 126 squareMap none
      [[(0, 1), (1, 2), (2, 3), (3, 0)], [(0, 2), (1, 3)]] ⟨[], []⟩ =
        .error "index out of bounds" := by
    simp only [hyperplaneStage, h1]
  have hfuel : (4 + 1) ^ 3 + 1 = 126 := by norm_num
  unfold facetingModel
  rw [square_pair_orbits, hfuel, hstage]

/-! ## C8: a filter matching nothing yields no orbits and no facetings -/

theorem pairOrbitsInner_keep_false {vm : List (Nat → Nat)}
    {keep : Nat → Nat → Bool} {rep : Nat} (hkeep : ∀ a b, keep a b = false) :
    ∀ (xs : List Nat) (ch : List (Nat × Nat)),
      pairOrbitsInner vm keep rep xs ch = ([], ch) := by
  intro xs
  induction xs with
  | nil => intro ch; rfl
  | cons x xs ih =>
    intro ch
    simp only [pairOrbitsInner, hkeep rep x]
    by_cases hcond : x ≠ rep ∧ (rep, x) ∉ ch
    · simp only [if_pos hcond, Bool.false_eq_true, if_false]
      exact ih ch
    · simp only [if_neg hcond]
      exact ih ch

theorem pairOrbits_keep_false {n : Nat} {vm : List (Nat → Nat)}
    {keep : Nat → Nat → Bool} (hkeep : ∀ a b, keep a b = false) :
    pairOrbits n vm keep = [] := by
  unfold pairOrbits
  generalize vertexOrbits n vm = os
  induction os with
  | nil => rfl
  | cons orb orbs ih =>
    simp only [pairOrbitsOuter, pairOrbitsInner_keep_false hkeep]
    simpa using ih

/-- With an empty facet pool the search exits on its first iteration,
emitting nothing. -/
theorem outputsUpTo_lens_nil {V : Type} (classify : List Frame → Fin 3)
    (noble : Option Nat) (irc : Bool) (d : AsmData V) :
    ∀ k, outputsUpTo [] classify noble irc d k (.cont [(0, 0)]) = [] := by
  have hnorm : normalize [] [(0, 0)] = .exit (0, 0) := by
    unfold normalize
    simp
  intro k
  cases k with
  | zero => rfl
  | succ k => simp only [outputsUpTo, hnorm]

/-- C8: if the edge-length filter matches no vertex pair at all, then
`faceting` produces zero pair orbits, therefore zero hyperplane orbits,
and the combination search exits immediately with an empty faceting
list. -/
theorem empty_filter_empty_facetings (σ V : Type) (geo : HPGeo σ)
    (n rank : Nat) (vm : List (Nat → Nat)) (keep : Nat → Nat → Bool)
    (vertices : List V)
    (subdim : List σ × List (List Nat) → SubdimOut)
    (ridgeReg : List (List (List RanksT)) → List (List (List Nat)) × List Nat)
    (canon : RanksT → RanksT → RanksT) (check : RanksT → Bool)
    (noble : Option Nat) (irc : Bool) (steps : Nat)
    (hkeep : ∀ a b, keep a b = false) :
    pairOrbits n vm keep = [] ∧
    hyperplaneStage geo n rank ((n + 1) ^ rank + 1) vm (some keep)
      (pairOrbits n vm keep) ⟨[], []⟩ = .ok ⟨[], []⟩ ∧
    facetingModel σ V geo n rank vm (some keep) vertices subdim ridgeReg canon
      check noble irc steps = .ok [] := by
  have hp : pairOrbits n vm keep = [] := pairOrbits_keep_false hkeep
  have hkof : keepOf (some keep) = keep := rfl
  refine ⟨hp, ?_, ?_⟩
  · rw [hp]
    rfl
  · simp only [facetingModel, hkof, hp, hyperplaneStage]
    simp only [List.map_nil]
    rw [outputsUpTo_lens_nil]

/-- Witness for `empty_filter_empty_facetings` at a concrete instance:
two vertices, the identity-only map, the always-false filter, and trivial
oracles over `σ = V = Unit`. -/
theorem empty_filter_empty_facetings_witness :
    pairOrbits 2 [fun v => v] (fun _ _ => false) = [] ∧
    hyperplaneStage (σ := Unit) ⟨fun _ => (), fun _ => true, fun _ _ => true⟩
      2 3 ((2 + 1) ^ 3 + 1) [fun v => v] (some (fun _ _ => false))
      (pairOrbits 2 [fun v => v] (fun _ _ => false)) ⟨[], []⟩ = .ok ⟨[], []⟩ ∧
    facetingModel Unit Unit ⟨fun _ => (), fun _ => true, fun _ _ => true⟩ 2 3
      [fun v => v] (some (fun _ _ => false)) []
      (fun _ => ⟨[], [], [], []⟩) (fun _ => ([], []))
      (fun r _ => r) (fun _ => true) none false 5 = .ok [] :=
  empty_filter_empty_facetings Unit Unit ⟨fun _ => (), fun _ => true, fun _ _ => true⟩
    2 3 [fun v => v] (fun _ _ => false) [] (fun _ => ⟨[], [], [], []⟩)
    (fun _ => ([], [])) (fun r _ => r) (fun _ => true) none false 5
    (fun _ _ => rfl)

/-! ## C6: termination of the combination search

Reduction lemmas for the well-founded `normalize`, then the strictly
increasing stack position, then termination. -/

theorem normalize_nil (lens : List Nat) :
    normalize lens [] = .exit (lens.length, 0) := by
  unfold normalize
  rfl

theorem normalize_single_exit (lens : List Nat) (h f : Nat)
    (hh : lens.length ≤ h) : normalize lens [(h, f)] = .exit (h, f) := by
  unfold normalize
  simp only [dif_pos hh]

theorem normalize_pop_carry (lens : List Nat) {h f h2 f2 : Nat} {rest2 : List Frame}
    (hh : lens.length ≤ h) (hc : lens.getD h2 0 ≤ f2 + 1) :
    normalize lens ((h, f) :: (h2, f2) :: rest2) =
      normalize lens ((h2 + 1, 0) :: rest2) := by
  conv_lhs => unfold normalize
  simp only [dif_pos hh, if_pos hc]

theorem normalize_pop_adv (lens : List Nat) {h f h2 f2 : Nat} {rest2 : List Frame}
    (hh : lens.length ≤ h) (hc : ¬ lens.getD h2 0 ≤ f2 + 1) :
    normalize lens ((h, f) :: (h2, f2) :: rest2) =
      normalize lens ((h2, f2 + 1) :: rest2) := by
  conv_lhs => unfold normalize
  simp only [dif_pos hh, if_neg hc]

theorem normalize_adv (lens : List Nat) {h f : Nat} {rest : List Frame}
    (hh : ¬ lens.length ≤ h) (hc : lens.getD h 0 ≤ f) :
    normalize lens ((h, f) :: rest) = normalize lens ((h + 1, 0) :: rest) := by
  conv_lhs => unfold normalize
  simp only [dif_neg hh, if_pos hc]

theorem normalize_done (lens : List Nat) {h f : Nat} {rest : List Frame}
    (hh : ¬ lens.length ≤ h) (hc : ¬ lens.getD h 0 ≤ f) :
    normalize lens ((h, f) :: rest) = .cont ((h, f) :: rest) := by
  unfold normalize
  simp only [dif_neg hh, if_neg hc]

theorem getD_le_maxLen (lens : List Nat) : ∀ i, lens.getD i 0 ≤ maxLen lens := by
  induction lens with
  | nil => intro i; simp [maxLen]
  | cons a l ih =>
    intro i
    cases i with
    | zero => simp [maxLen, List.getD]
    | succ i =>
      simp only [List.getD_cons_succ, maxLen, List.foldr_cons]
      exact le_trans (ih i) (le_max_right _ _)

theorem chainHeadMono {p q : Frame} {t : List Frame}
    (hc : List.Chain' (fun a b => b.1 < a.1) (p :: t)) (hle : p.1 ≤ q.1) :
    List.Chain' (fun a b => b.1 < a.1) (q :: t) := by
  cases t with
  | nil => simp
  | cons r t' =>
    rw [List.chain'_cons] at hc ⊢
    exact ⟨lt_of_lt_of_le hc.1 hle, hc.2⟩

theorem chain_length_le_top : ∀ (x : Frame) (t : List Frame),
    List.Chain' (fun a b => b.1 < a.1) (x :: t) → (x :: t).length ≤ x.1 + 1 := by
  intro x t
  induction t generalizing x with
  | nil => intro _; simp
  | cons y t' ih =>
    intro hc
    rw [List.chain'_cons] at hc
    have h1 := ih y hc.2
    simp only [List.length_cons] at h1 ⊢
    omega

theorem stackInv_length (lens : List Nat) {s : List Frame}
    (hInv : StackInv lens s) : s.length ≤ lens.length + 2 := by
  obtain ⟨hne, hchain, hbnd⟩ := hInv
  cases s with
  | nil => simp
  | cons x t =>
    have h1 := chain_length_le_top x t hchain
    have h2 := (hbnd x (List.mem_cons_self _ _)).1
    omega

theorem encF_pos (lens : List Nat) (p : Frame) : 1 ≤ encF lens p := by
  unfold encF
  omega

theorem encF_lt_base (lens : List Nat) {p : Frame}
    (h1 : p.1 ≤ lens.length + 1) (h2 : p.2 ≤ maxLen lens) :
    encF lens p < baseB lens := by
  unfold encF baseB
  have hmul : p.1 * (maxLen lens + 1) ≤ (lens.length + 1) * (maxLen lens + 1) :=
    Nat.mul_le_mul_right _ h1
  have hexp : (lens.length + 2) * (maxLen lens + 1)
      = (lens.length + 1) * (maxLen lens + 1) + (maxLen lens + 1) := by ring
  omega

theorem baseB_pos (lens : List Nat) : 0 < baseB lens := by
  unfold baseB
  omega

theorem eH_append (lens : List Nat) (l : List Frame) (d : Frame) :
    eH lens (l ++ [d]) = eH lens l * baseB lens + encF lens d := by
  unfold eH
  rw [List.foldl_append]
  rfl

theorem eH_lt (lens : List Nat) :
    ∀ l : List Frame, (∀ d ∈ l, encF lens d < baseB lens) →
      eH lens l < baseB lens ^ l.length := by
  intro l
  induction l using List.reverseRecOn with
  | nil =>
    intro _
    unfold eH
    simp
  | append_singleton l d ih =>
    intro hd
    rw [eH_append]
    have hl := ih (fun x hx => hd x (List.mem_append.2 (Or.inl hx)))
    have hdlt := hd d (List.mem_append.2 (Or.inr (List.mem_singleton.2 rfl)))
    rw [List.length_append, List.length_singleton, pow_succ]
    have h1 : (eH lens l + 1) * baseB lens ≤ baseB lens ^ l.length * baseB lens :=
      Nat.mul_le_mul_right _ hl
    have h2 : (eH lens l + 1) * baseB lens
        = eH lens l * baseB lens + baseB lens := by ring
    omega

theorem eStack_lt_bound (lens : List Nat) {s : List Frame}
    (hInv : StackInv lens s) :
    eStack lens s < baseB lens ^ (lens.length + 2) := by
  have hlen := stackInv_length lens hInv
  obtain ⟨_, _, hbnd⟩ := hInv
  have hd : ∀ d ∈ s.reverse, encF lens d < baseB lens := by
    intro d hd'
    have hmem := List.mem_reverse.1 hd'
    exact encF_lt_base lens (hbnd d hmem).1 (hbnd d hmem).2
  have h1 := eH_lt lens s.reverse hd
  rw [List.length_reverse] at h1
  unfold eStack
  calc eH lens s.reverse * baseB lens ^ (lens.length + 2 - s.length)
      < baseB lens ^ s.length * baseB lens ^ (lens.length + 2 - s.length) :=
        mul_lt_mul_of_pos_right h1 (pow_pos (baseB_pos lens) _)
    _ = baseB lens ^ (lens.length + 2) := by
        rw [← pow_add]
        congr 1
        omega

theorem eStack_cons (lens : List Nat) (x : Frame) (t : List Frame) :
    eStack lens (x :: t) =
      (eH lens t.reverse * baseB lens + encF lens x) *
        baseB lens ^ (lens.length + 2 - (t.length + 1)) := by
  unfold eStack
  rw [List.reverse_cons, eH_append, List.length_cons]

theorem eStack_lt_of_top_lt (lens : List Nat) {x x' : Frame} (t : List Frame)
    (henc : encF lens x < encF lens x') :
    eStack lens (x :: t) < eStack lens (x' :: t) := by
  rw [eStack_cons, eStack_cons]
  exact mul_lt_mul_of_pos_right (by omega) (pow_pos (baseB_pos lens) _)

theorem eStack_lt_push (lens : List Nat) (x : Frame) {s : List Frame}
    (hlen : s.length < lens.length + 2) :
    eStack lens s < eStack lens (x :: s) := by
  rw [eStack_cons]
  unfold eStack
  have hk : lens.length + 2 - s.length = (lens.length + 2 - (s.length + 1)) + 1 := by
    omega
  rw [hk, pow_succ]
  have hpos : 0 < baseB lens ^ (lens.length + 2 - (s.length + 1)) :=
    pow_pos (baseB_pos lens) _
  have hx := encF_pos lens x
  nlinarith

theorem eStack_lt_pop (lens : List Nat) {x y y' : Frame} {t : List Frame}
    (hlen : t.length + 2 ≤ lens.length + 2) (hx : encF lens x < baseB lens)
    (hy : encF lens y < encF lens y') :
    eStack lens (x :: y :: t) < eStack lens (y' :: t) := by
  rw [eStack_cons, eStack_cons]
  rw [List.reverse_cons, eH_append]
  simp only [List.length_cons]
  have hk : lens.length + 2 - (t.length + 1)
      = (lens.length + 2 - (t.length + 1 + 1)) + 1 := by omega
  rw [hk, pow_succ]
  have hpos : 0 < baseB lens ^ (lens.length + 2 - (t.length + 1 + 1)) :=
    pow_pos (baseB_pos lens) _
  have hinner : (eH lens t.reverse * baseB lens + encF lens y) * baseB lens +
      encF lens x < (eH lens t.reverse * baseB lens + encF lens y') * baseB lens := by
    have h1 : (eH lens t.reverse * baseB lens + encF lens y + 1) * baseB lens
        ≤ (eH lens t.reverse * baseB lens + encF lens y') * baseB lens :=
      Nat.mul_le_mul_right _ (by omega)
    have h2 : (eH lens t.reverse * baseB lens + encF lens y + 1) * baseB lens
        = (eH lens t.reverse * baseB lens + encF lens y) * baseB lens + baseB lens := by
      ring
    omega
  calc ((eH lens t.reverse * baseB lens + encF lens y) * baseB lens + encF lens x) *
        baseB lens ^ (lens.length + 2 - (t.length + 1 + 1))
      < ((eH lens t.reverse * baseB lens + encF lens y') * baseB lens) *
        baseB lens ^ (lens.length + 2 - (t.length + 1 + 1)) :=
        mul_lt_mul_of_pos_right hinner hpos
    _ = (eH lens t.reverse * baseB lens + encF lens y') *
        (baseB lens ^ (lens.length + 2 - (t.length + 1 + 1)) * baseB lens) := by ring

theorem normalize_exit_ge (lens : List Nat) :
    ∀ (s : List Frame) (h f : Nat), normalize lens s = .exit (h, f) →
      lens.length ≤ h := by
  intro s
  induction s using normalize.induct lens with
  | case1 =>
    intro h f heq
    rw [normalize_nil] at heq
    simp only [NormR.exit.injEq, Prod.mk.injEq] at heq
    omega
  | case2 h2 f2 hh =>
    intro h f heq
    rw [normalize_single_exit lens h2 f2 hh] at heq
    simp only [NormR.exit.injEq, Prod.mk.injEq] at heq
    omega
  | case3 h2 f2 hh h3 f3 rest2 hc ih =>
    intro h f heq
    rw [normalize_pop_carry lens hh hc] at heq
    exact ih h f heq
  | case4 h2 f2 hh h3 f3 rest2 hc ih =>
    intro h f heq
    rw [normalize_pop_adv lens hh hc] at heq
    exact ih h f heq
  | case5 h2 f2 rest hh hc ih =>
    intro h f heq
    rw [normalize_adv lens hh hc] at heq
    exact ih h f heq
  | case6 h2 f2 rest hh hc =>
    intro h f heq
    rw [normalize_done lens hh hc] at heq
    simp at heq

theorem normalize_cont_spec (lens : List Nat) :
    ∀ s : List Frame, StackInv lens s → ∀ s', normalize lens s = .cont s' →
      StackInv lens s' ∧ eStack lens s ≤ eStack lens s' ∧
      ∃ h f rest, s' = (h, f) :: rest ∧ h < lens.length ∧ f < lens.getD h 0 := by
  intro s
  induction s using normalize.induct lens with
  | case1 =>
    intro hInv
    exact absurd rfl hInv.1
  | case2 h2 f2 hh =>
    intro _ s' heq
    rw [normalize_single_exit lens h2 f2 hh] at heq
    simp at heq
  | case3 h2 f2 hh h3 f3 rest2 hc ih =>
    intro hInv s' heq
    rw [normalize_pop_carry lens hh hc] at heq
    obtain ⟨hne, hchain, hbnd⟩ := hInv
    rw [List.chain'_cons] at hchain
    have hb_top := hbnd (h2, f2) (List.mem_cons_self _ _)
    have hb_blw := hbnd (h3, f3) (List.mem_cons_of_mem _ (List.mem_cons_self _ _))
    have hInv' : StackInv lens ((h3 + 1, 0) :: rest2) := by
      refine ⟨by simp, chainHeadMono hchain.2 (by simp), ?_⟩
      intro p hp
      rcases List.mem_cons.1 hp with rfl | hp'
      · constructor
        · simp only
          have := hchain.1
          simp only at this hb_top
          omega
        · simp only
          omega
      · exact hbnd p (List.mem_cons_of_mem _ (List.mem_cons_of_mem _ hp'))
    have hlt : eStack lens ((h2, f2) :: (h3, f3) :: rest2) <
        eStack lens ((h3 + 1, 0) :: rest2) := by
      refine eStack_lt_pop lens ?_ ?_ ?_
      · have := stackInv_length lens ⟨hne, List.chain'_cons.2 hchain, hbnd⟩
        simp only [List.length_cons] at this
        omega
      · exact encF_lt_base lens hb_top.1 hb_top.2
      · unfold encF
        simp only
        have hf3 := hb_blw.2
        simp only at hf3
        have : (h3 + 1) * (maxLen lens + 1) = h3 * (maxLen lens + 1) + (maxLen lens + 1) := by
          ring
        omega
    obtain ⟨hI, hle, htop⟩ := ih hInv' s' heq
    exact ⟨hI, le_trans (le_of_lt hlt) hle, htop⟩
  | case4 h2 f2 hh h3 f3 rest2 hc ih =>
    intro hInv s' heq
    rw [normalize_pop_adv lens hh hc] at heq
    obtain ⟨hne, hchain, hbnd⟩ := hInv
    rw [List.chain'_cons] at hchain
    have hb_top := hbnd (h2, f2) (List.mem_cons_self _ _)
    have hf3lt : f3 + 1 < lens.getD h3 0 := by omega
    have hf3M : f3 + 1 ≤ maxLen lens :=
      le_trans (le_of_lt hf3lt) (getD_le_maxLen lens h3)
    have hInv' : StackInv lens ((h3, f3 + 1) :: rest2) := by
      refine ⟨by simp, chainHeadMono hchain.2 (by simp), ?_⟩
      intro p hp
      rcases List.mem_cons.1 hp with rfl | hp'
      · have hb_blw := hbnd (h3, f3) (List.mem_cons_of_mem _ (List.mem_cons_self _ _))
        exact ⟨hb_blw.1, hf3M⟩
      · exact hbnd p (List.mem_cons_of_mem _ (List.mem_cons_of_mem _ hp'))
    have hlt : eStack lens ((h2, f2) :: (h3, f3) :: rest2) <
        eStack lens ((h3, f3 + 1) :: rest2) := by
      refine eStack_lt_pop lens ?_ ?_ ?_
      · have := stackInv_length lens ⟨hne, List.chain'_cons.2 hchain, hbnd⟩
        simp only [List.length_cons] at this
        omega
      · exact encF_lt_base lens hb_top.1 hb_top.2
      · unfold encF
        simp only
        omega
    obtain ⟨hI, hle, htop⟩ := ih hInv' s' heq
    exact ⟨hI, le_trans (le_of_lt hlt) hle, htop⟩
  | case5 h2 f2 rest hh hc ih =>
    intro hInv s' heq
    rw [normalize_adv lens hh hc] at heq
    obtain ⟨hne, hchain, hbnd⟩ := hInv
    have hb_top := hbnd (h2, f2) (List.mem_cons_self _ _)
    have hInv' : StackInv lens ((h2 + 1, 0) :: rest) := by
      refine ⟨by simp, chainHeadMono hchain (by simp), ?_⟩
      intro p hp
      rcases List.mem_cons.1 hp with rfl | hp'
      · constructor
        · simp only
          omega
        · simp only
          omega
      · exact hbnd p (List.mem_cons_of_mem _ hp')
    have hlt : eStack lens ((h2, f2) :: rest) < eStack lens ((h2 + 1, 0) :: rest) := by
      refine eStack_lt_of_top_lt lens rest ?_
      unfold encF
      simp only
      have hf2 := hb_top.2
      simp only at hf2
      have : (h2 + 1) * (maxLen lens + 1) = h2 * (maxLen lens + 1) + (maxLen lens + 1) := by
        ring
      omega
    obtain ⟨hI, hle, htop⟩ := ih hInv' s' heq
    exact ⟨hI, le_trans (le_of_lt hlt) hle, htop⟩
  | case6 h2 f2 rest hh hc =>
    intro hInv s' heq
    rw [normalize_done lens hh hc] at heq
    simp only [NormR.cont.injEq] at heq
    subst heq
    exact ⟨hInv, le_refl _, h2, f2, rest, rfl, by omega, by omega⟩

theorem advanceF_spec (lens : List Nat) {h f : Nat} {rest : List Frame}
    (hInv : StackInv lens ((h, f) :: rest))
    (hh : h < lens.length) (hf : f < lens.getD h 0) :
    StackInv lens (advanceF lens ((h, f) :: rest)) ∧
    eStack lens ((h, f) :: rest) < eStack lens (advanceF lens ((h, f) :: rest)) := by
  obtain ⟨_, hchain, hbnd⟩ := hInv
  have hb_top := hbnd (h, f) (List.mem_cons_self _ _)
  have hgd := getD_le_maxLen lens h
  unfold advanceF
  by_cases hcase : f = lens.getD h 0 - 1
  · simp only [if_pos hcase]
    refine ⟨⟨by simp, chainHeadMono hchain (by simp), ?_⟩, ?_⟩
    · intro p hp
      rcases List.mem_cons.1 hp with rfl | hp'
      · exact ⟨by simp only; omega, by simp only; omega⟩
      · exact hbnd p (List.mem_cons_of_mem _ hp')
    · refine eStack_lt_of_top_lt lens rest ?_
      unfold encF
      simp only
      have hfM := hb_top.2
      simp only at hfM
      have : (h + 1) * (maxLen lens + 1) = h * (maxLen lens + 1) + (maxLen lens + 1) := by
        ring
      omega
  · simp only [if_neg hcase]
    have hf1 : f + 1 < lens.getD h 0 := by omega
    refine ⟨⟨by simp, chainHeadMono hchain (by simp), ?_⟩, ?_⟩
    · intro p hp
      rcases List.mem_cons.1 hp with rfl | hp'
      · exact ⟨hb_top.1, by simp only; omega⟩
      · exact hbnd p (List.mem_cons_of_mem _ hp')
    · refine eStack_lt_of_top_lt lens rest ?_
      unfold encF
      simp only
      omega

theorem pushF_spec (lens : List Nat) {h f : Nat} {rest : List Frame}
    (hInv : StackInv lens ((h, f) :: rest)) (hh : h < lens.length) :
    StackInv lens (pushF ((h, f) :: rest)) ∧
    eStack lens ((h, f) :: rest) < eStack lens (pushF ((h, f) :: rest)) := by
  obtain ⟨_, hchain, hbnd⟩ := hInv
  unfold pushF
  refine ⟨⟨by simp, ?_, ?_⟩, ?_⟩
  · rw [List.chain'_cons]
    exact ⟨by simp only; omega, hchain⟩
  · intro p hp
    rcases List.mem_cons.1 hp with rfl | hp'
    · exact ⟨by simp only; omega, by simp only; omega⟩
    · exact hbnd p hp'
  · refine eStack_lt_push lens (h + 1, 0) ?_
    have h1 := chain_length_le_top (h, f) rest hchain
    simp only at h1
    simp only [List.length_cons] at h1 ⊢
    omega

theorem transitionF_spec (lens : List Nat) (noble : Option Nat) (irc : Bool)
    (c : Fin 3) {h f : Nat} {rest : List Frame}
    (hInv : StackInv lens ((h, f) :: rest))
    (hh : h < lens.length) (hf : f < lens.getD h 0) :
    StackInv lens (transitionF lens noble irc c ((h, f) :: rest)) ∧
    eStack lens ((h, f) :: rest) <
      eStack lens (transitionF lens noble irc c ((h, f) :: rest)) := by
  unfold transitionF
  by_cases hc1 : c = 1
  · simp only [if_pos hc1]
    exact advanceF_spec lens hInv hh hf
  · simp only [if_neg hc1]
    by_cases hc2 : c = 2
    · simp only [if_pos hc2]
      cases noble with
      | none => exact pushF_spec lens hInv hh
      | some m =>
        by_cases hlen : ((h, f) :: rest).length = m
        · simp only [if_pos hlen]
          exact advanceF_spec lens hInv hh hf
        · simp only [if_neg hlen]
          exact pushF_spec lens hInv hh
    · simp only [if_neg hc2]
      cases noble with
      | none =>
        cases irc with
        | true => simpa using pushF_spec lens hInv hh
        | false => simpa using advanceF_spec lens hInv hh hf
      | some m =>
        by_cases hlen : ((h, f) :: rest).length = m
        · simp only [if_pos hlen]
          exact advanceF_spec lens hInv hh hf
        · simp only [if_neg hlen]
          cases irc with
          | true => simpa using pushF_spec lens hInv hh
          | false => simpa using advanceF_spec lens hInv hh hf

theorem stepState_progress (lens : List Nat) (classify : List Frame → Fin 3)
    (noble : Option Nat) (irc : Bool) {s : List Frame}
    (hInv : StackInv lens s) :
    (∃ h f, stepState lens classify noble irc s = .exit (h, f) ∧ lens.length ≤ h) ∨
    (∃ s', stepState lens classify noble irc s = .cont s' ∧ StackInv lens s' ∧
      eStack lens s < eStack lens s') := by
  unfold stepState
  cases hnorm : normalize lens s with
  | exit p =>
    left
    exact ⟨p.1, p.2, rfl, normalize_exit_ge lens s p.1 p.2 (by rw [hnorm])⟩
  | cont s₁ =>
    obtain ⟨hInv₁, hle, h, f, rest, rfl, hh, hf⟩ :=
      normalize_cont_spec lens s hInv s₁ hnorm
    obtain ⟨hInv₂, hlt⟩ :=
      transitionF_spec lens noble irc (classify ((h, f) :: rest)) hInv₁ hh hf
    exact Or.inr ⟨_, rfl, hInv₂, lt_of_le_of_lt hle hlt⟩

theorem searchLoop_exits (lens : List Nat) (classify : List Frame → Fin 3)
    (noble : Option Nat) (irc : Bool) :
    ∀ s, StackInv lens s → ∃ k h f,
      stepIter lens classify noble irc k (.cont s) = .exit (h, f) ∧
      lens.length ≤ h := by
  have main : ∀ m s, StackInv lens s →
      baseB lens ^ (lens.length + 2) - eStack lens s ≤ m →
      ∃ k h f, stepIter lens classify noble irc k (.cont s) = .exit (h, f) ∧
        lens.length ≤ h := by
    intro m
    induction m with
    | zero =>
      intro s hInv hm
      have := eStack_lt_bound lens hInv
      omega
    | succ m ih =>
      intro s hInv hm
      rcases stepState_progress lens classify noble irc hInv with
        ⟨h, f, heq, hge⟩ | ⟨s', heq, hInv', hlt⟩
      · refine ⟨1, h, f, ?_, hge⟩
        simp only [stepIter, heq]
      · have hbd := eStack_lt_bound lens hInv'
        obtain ⟨k, h, f, hiter, hge⟩ := ih s' hInv' (by omega)
        refine ⟨k + 1, h, f, ?_, hge⟩
        simp only [stepIter, heq]
        exact hiter
  intro s hInv
  exact main (baseB lens ^ (lens.length + 2)) s hInv (by omega)

end Faceting

namespace Faceting

/-- C6: for every input, the combination-search loop of `faceting`
terminates: the explicit facet stack eventually empties, and it does so
exactly by popping the root frame once its hyperplane-orbit index reaches
past the number of hyperplane orbits (`lens.length ≤ h` is part of the
conclusion, and `exit` fires only on that pop).  This holds for both
settings of the `irc` flag, with or without a noble budget, and for every
classification outcome — in particular for the concrete ridge-coverage
classification `classifyData`. -/
theorem combination_search_terminates (lens : List Nat)
    (classify : List Frame → Fin 3) (noble : Option Nat) (irc : Bool) :
    ∃ k h f, stepIter lens classify noble irc k (.cont [(0, 0)]) = .exit (h, f) ∧
      lens.length ≤ h :=
  searchLoop_exits lens classify noble irc [(0, 0)]
    ⟨by simp, by simp, by
      intro p hp
      rw [List.mem_singleton] at hp
      subst hp
      exact ⟨by simp, by simp⟩⟩

/-! ## C7: the noble budget and the stack depth -/

theorem normalize_one_zero : normalize [1] [(0, 0)] = .cont [(0, 0)] :=
  normalize_done [1] (by decide) (by decide)

/-- C7 counterexample: with noble budget `m = 0` the stack exceeds the
budget.  With the real ridge-coverage classification on `nobleProbe`
(one facet type covering its single ridge orbit exactly twice), the
initial one-frame stack — already more than 0 frames — classifies as
valid, and since its length is not EQUAL to the budget (the code checks
`facets.len() == max_facets`, line 1043), the `irc` branch pushes a
second frame. -/
theorem noble_zero_counterexample :
    classifyData nobleProbe [(0, 0)] = 0 ∧
    stepIter nobleProbe.lens (classifyData nobleProbe) (some 0) true 1
      (.cont [(0, 0)]) = .cont [(1, 0), (0, 0)] ∧
    0 < ([(1, 0), (0, 0)] : List Frame).length := by
  refine ⟨by decide, ?_, by decide⟩
  have hnorm : normalize nobleProbe.lens [(0, 0)] = .cont [(0, 0)] :=
    normalize_one_zero
  simp only [stepIter]
  unfold stepState
  rw [hnorm]
  rfl

theorem stepIter_exit (lens : List Nat) (classify : List Frame → Fin 3)
    (noble : Option Nat) (irc : Bool) :
    ∀ k p, stepIter lens classify noble irc k (.exit p) = .exit p := by
  intro k
  induction k with
  | zero => intro p; rfl
  | succ k ih => intro p; simp only [stepIter]

theorem normalize_cont_length (lens : List Nat) :
    ∀ s s', normalize lens s = .cont s' → s'.length ≤ s.length := by
  intro s
  induction s using normalize.induct lens with
  | case1 =>
    intro s' heq
    rw [normalize_nil] at heq
    simp at heq
  | case2 h2 f2 hh =>
    intro s' heq
    rw [normalize_single_exit lens h2 f2 hh] at heq
    simp at heq
  | case3 h2 f2 hh h3 f3 rest2 hc ih =>
    intro s' heq
    rw [normalize_pop_carry lens hh hc] at heq
    have := ih s' heq
    simp only [List.length_cons] at this ⊢
    omega
  | case4 h2 f2 hh h3 f3 rest2 hc ih =>
    intro s' heq
    rw [normalize_pop_adv lens hh hc] at heq
    have := ih s' heq
    simp only [List.length_cons] at this ⊢
    omega
  | case5 h2 f2 rest hh hc ih =>
    intro s' heq
    rw [normalize_adv lens hh hc] at heq
    have := ih s' heq
    simp only [List.length_cons] at this ⊢
    omega
  | case6 h2 f2 rest hh hc =>
    intro s' heq
    rw [normalize_done lens hh hc] at heq
    simp only [NormR.cont.injEq] at heq
    subst heq
    exact le_refl _

theorem advanceF_length (lens : List Nat) :
    ∀ s, (advanceF lens s).length = s.length := by
  intro s
  cases s with
  | nil => rfl
  | cons p rest =>
    obtain ⟨h, f⟩ := p
    unfold advanceF
    by_cases hc : f = lens.getD h 0 - 1
    · simp only [if_pos hc, List.length_cons]
    · simp only [if_neg hc, List.length_cons]

theorem pushF_length : ∀ s : List Frame, (pushF s).length ≤ s.length + 1 := by
  intro s
  cases s with
  | nil => simp [pushF]
  | cons p rest =>
    obtain ⟨h, f⟩ := p
    simp [pushF]

theorem transitionF_length_noble (lens : List Nat) (irc : Bool) (c : Fin 3)
    (m : Nat) {s : List Frame} (hs : s.length ≤ m) :
    (transitionF lens (some m) irc c s).length ≤ m := by
  unfold transitionF
  by_cases hc1 : c = 1
  · simp only [if_pos hc1, advanceF_length]
    exact hs
  · simp only [if_neg hc1]
    by_cases hc2 : c = 2
    · simp only [if_pos hc2]
      by_cases hlen : s.length = m
      · simp only [if_pos hlen, advanceF_length]
        exact hs
      · simp only [if_neg hlen]
        have := pushF_length s
        omega
    · simp only [if_neg hc2]
      by_cases hlen : s.length = m
      · simp only [if_pos hlen, advanceF_length]
        exact hs
      · simp only [if_neg hlen]
        by_cases hirc : irc = true
        · rw [if_pos hirc]
          have := pushF_length s
          omega
        · rw [if_neg hirc, advanceF_length]
          exact hs

end Faceting

namespace Faceting

/-- C7 (amended): for every noble budget `m ≥ 1` (with `m = 0` the
initial one-frame stack already exceeds the budget and pushes still
happen, see the counterexample), the combination-search stack depth is
capped at `m`: whenever the stack length reaches `m`, both the valid and
the incomplete branch advance or carry instead of pushing, so every
reachable search state holds at most `m` frames.  Holds for either `irc`
setting and every classification outcome, in particular `classifyData`. -/
theorem noble_budget_caps_depth (lens : List Nat) (classify : List Frame → Fin 3)
    (irc : Bool) (m : Nat) (hm : 1 ≤ m) :
    ∀ k s, stepIter lens classify (some m) irc k (.cont [(0, 0)]) = .cont s →
      s.length ≤ m := by
  have main : ∀ k (s₀ : List Frame), s₀.length ≤ m →
      ∀ s, stepIter lens classify (some m) irc k (.cont s₀) = .cont s →
        s.length ≤ m := by
    intro k
    induction k with
    | zero =>
      intro s₀ hs₀ s heq
      simp only [stepIter, NormR.cont.injEq] at heq
      subst heq
      exact hs₀
    | succ k ih =>
      intro s₀ hs₀ s heq
      simp only [stepIter] at heq
      cases hstep : stepState lens classify (some m) irc s₀ with
      | exit p =>
        rw [hstep, stepIter_exit] at heq
        cases heq
      | cont s₁ =>
        rw [hstep] at heq
        refine ih s₁ ?_ s heq
        unfold stepState at hstep
        cases hnorm : normalize lens s₀ with
        | exit p =>
          rw [hnorm] at hstep
          cases hstep
        | cont s' =>
          rw [hnorm] at hstep
          simp only [NormR.cont.injEq] at hstep
          subst hstep
          have h1 : s'.length ≤ m :=
            le_trans (normalize_cont_length lens s₀ s' hnorm) hs₀
          exact transitionF_length_noble lens irc (classify s') m h1
  intro k s heq
  exact main k [(0, 0)] (by simpa using hm) s heq

/-- Witness for `noble_budget_caps_depth`: budget 1, one facet type, the
always-exotic classification; after one step the stack is `[(1, 0)]` of
length 1. -/
theorem noble_budget_caps_depth_witness :
    (1 : Nat) ≤ 1 ∧
    stepIter [1] (fun _ => 1) (some 1) false 1 (.cont [(0, 0)]) = .cont [(1, 0)] ∧
    ([(1, 0)] : List Frame).length ≤ 1 := by
  have hstep : stepIter [1] (fun _ => 1) (some 1) false 1 (.cont [(0, 0)]) =
      .cont [(1, 0)] := by
    simp only [stepIter]
    unfold stepState
    rw [normalize_one_zero]
    decide
  exact ⟨le_refl 1, hstep,
    noble_budget_caps_depth [1] (fun _ => 1) false 1 (le_refl 1) 1 [(1, 0)] hstep⟩

/-! ## C1 and C9: what the assembler emits -/

theorem mem_outputsUpTo {V : Type} (lens : List Nat)
    (classify : List Frame → Fin 3) (noble : Option Nat) (irc : Bool)
    (d : AsmData V) :
    ∀ (k : Nat) (r : NormR) (out : RanksT × List V),
      out ∈ outputsUpTo lens classify noble irc d k r →
      ∃ s', out = (candidateOf d s', d.vertices) ∧
        d.check (candidateOf d s') = true := by
  intro k
  induction k with
  | zero =>
    intro r out hmem
    cases hmem
  | succ k ih =>
    intro r out hmem
    cases r with
    | exit p => cases hmem
    | cont s =>
      simp only [outputsUpTo] at hmem
      cases hnorm : normalize lens s with
      | exit p =>
        simp only [hnorm] at hmem
        cases hmem
      | cont s' =>
        simp only [hnorm] at hmem
        by_cases hcl : classify s' = 0
        · rw [if_pos hcl] at hmem
          cases hch : emitOf d s' with
          | none =>
            rw [hch] at hmem
            exact ih _ out hmem
          | some o =>
            rw [hch] at hmem
            rcases List.mem_cons.1 hmem with rfl | hmem'
            · unfold emitOf at hch
              by_cases hck : d.check (candidateOf d s') = true
              · rw [if_pos hck] at hch
                simp only [Option.some.injEq] at hch
                exact ⟨s', hch.symm, hck⟩
              · rw [if_neg hck] at hch
                cases hch
            · exact ih _ out hmem'
        · rw [if_neg hcl] at hmem
          exact ih _ out hmem

theorem outputs_eq_filtered_candidates {V : Type} (lens : List Nat)
    (classify : List Frame → Fin 3) (noble : Option Nat) (irc : Bool)
    (d : AsmData V) :
    ∀ (k : Nat) (r : NormR),
      outputsUpTo lens classify noble irc d k r =
        (candidatesUpTo lens classify noble irc d k r).filterMap
          (fun ranks => if d.check ranks then some (ranks, d.vertices) else none) := by
  intro k
  induction k with
  | zero => intro r; rfl
  | succ k ih =>
    intro r
    cases r with
    | exit p => rfl
    | cont s =>
      simp only [outputsUpTo, candidatesUpTo]
      cases hnorm : normalize lens s with
      | exit p =>
        simp only [hnorm]
        rfl
      | cont s' =>
        simp only [hnorm]
        by_cases hcl : classify s' = 0
        · rw [if_pos hcl, if_pos hcl]
          unfold emitOf
          rw [List.filterMap_cons]
          by_cases hck : d.check (candidateOf d s') = true
          · rw [if_pos hck, ih]
          · rw [if_neg hck, ih]
        · rw [if_neg hcl, if_neg hcl]
          exact ih _

end Faceting

namespace Faceting

/-- C1: every incidence structure emitted by the combination search has
passed the builder's dyadic check (whatever check the external builder
implements: the theorem is over every `d.check`), and the emitted list is
exactly the assembled candidates filtered by that check: a candidate that
fails it is silently excluded — no error value exists in the model, and
the search state stream (`stepState`) does not depend on the check at
all, so the search continues unchanged. -/
theorem emitted_structures_pass_dyadic_check (V : Type) (lens : List Nat)
    (classify : List Frame → Fin 3) (noble : Option Nat) (irc : Bool)
    (d : AsmData V) (k : Nat) :
    (outputsUpTo lens classify noble irc d k (.cont [(0, 0)])).Forall
      (fun out => d.check out.1 = true) ∧
    outputsUpTo lens classify noble irc d k (.cont [(0, 0)]) =
      (candidatesUpTo lens classify noble irc d k (.cont [(0, 0)])).filterMap
        (fun ranks => if d.check ranks then some (ranks, d.vertices) else none) := by
  constructor
  · rw [List.forall_iff_forall_mem]
    intro out hmem
    obtain ⟨s', rfl, hck⟩ :=
      mem_outputsUpTo lens classify noble irc d k _ out hmem
    exact hck
  · exact outputs_eq_filtered_candidates lens classify noble irc d k _

/-- Sanity demonstration that the emission machinery is not vacuous: with
one facet type (a dyad on two vertices) whose single ridge orbit is
covered exactly twice, one search step emits exactly one faceting —
nullitope, two vertex elements, one edge, one body. -/
theorem outputs_demo :
    outputsUpTo [1] (classifyData nobleProbe) none false
      ({ rank := 3, vertices := [(), ()], vm := [fun v => v],
         pfGlobal := [[[[⟨[]⟩], [⟨[0]⟩, ⟨[0]⟩], [⟨[0, 1]⟩]]]],
         pfLocal := [[[[⟨[]⟩], [⟨[0]⟩, ⟨[0]⟩], [⟨[0, 1]⟩]]]],
         canon := fun r _ => r, check := fun _ => true } : AsmData Unit)
      1 (.cont [(0, 0)]) =
      [([[⟨[]⟩], [⟨[0]⟩, ⟨[0]⟩], [⟨[0, 1]⟩], [⟨[0]⟩]], [(), ()])] := by
  simp only [outputsUpTo]
  rw [normalize_one_zero]
  rfl

/-- C9: every faceting emitted by the search has a vertex rank consisting
of exactly one element (with the nullitope as its single subelement) per
vertex of the input polytope — its length equals the input vertex count —
and the emitted vertex-coordinate list is the input polytope's vertex
list, unchanged (`vertices: self.vertices.clone()`). -/
theorem emitted_vertex_rank_and_coordinates (V : Type) (lens : List Nat)
    (classify : List Frame → Fin 3) (noble : Option Nat) (irc : Bool)
    (d : AsmData V) (k : Nat) :
    (outputsUpTo lens classify noble irc d k (.cont [(0, 0)])).Forall
      (fun out =>
        out.1.getD 1 [] = List.replicate d.vertices.length (⟨[0]⟩ : Element) ∧
        out.2 = d.vertices) := by
  rw [List.forall_iff_forall_mem]
  intro out hmem
  obtain ⟨s', rfl, _⟩ :=
    mem_outputsUpTo lens classify noble irc d k _ out hmem
  exact ⟨rfl, rfl⟩

/-- C2 (code bug): the ridge-coverage division is not always exact, and a
fractional result is caught by nothing.  Running the `faceting_subdim`
pipeline at rank 3 on a triangle with the non-closed local table
`{id, (0 1 2)}` — the `new_stabilizer` a rank-4 `faceting` call hands
down when the user supplies a legal but non-closed `GroupEnum::VertexMap`
table — yields `triCombData`, on which the contribution for the second
hyperplane orbit's facet and its first ridge is `f_count * ridge_count /
total_ridge_count = 1 * 1 / 2`: the ridge orbit's total size `2` does not
divide the product `1`, the truncating division silently floors the
contribution to `0` (the coverage pass returns the vector `[0, 1]` with
no error — the code contains no assertion), and the search reaches that
stack on its second iteration starting from the initial `[(0, 0)]`.  The
canonicalization `element_sort_strong` is instantiated with the identity,
which is its value on these ridges (virtual edges with at most one
element per rank and single-entry subelement lists, so any
relabeling-invariant structural sort fixes them). -/
theorem coverage_division_floors_silently :
    subdimR3 triGeo 3 triMap none (fun r => r) = .ok triCombData ∧
    triCombData.fCounts.getD 1 0 * (triCombData.ffCounts.getD 1 []).getD 0 0 = 1 ∧
    triCombData.ridgeCounts.getD 0 0 = 2 ∧
    ¬ (triCombData.ridgeCounts.getD 0 0 ∣
        triCombData.fCounts.getD 1 0 * (triCombData.ffCounts.getD 1 []).getD 0 0) ∧
    coverStack triCombData [(1, 0)]
        (List.replicate triCombData.ridgeCounts.length 0) = .ok [0, 1] ∧
    stepIter triCombData.lens (classifyData triCombData) none false 1
        (.cont [(0, 0)]) = .cont [(1, 0)] := by
  refine ⟨rfl, by decide, by decide, by decide, rfl, ?_⟩
  have hnorm : normalize triCombData.lens [(0, 0)] = NormR.cont [(0, 0)] :=
    normalize_done _ (by decide) (by decide)
  simp only [stepIter, stepState, hnorm]
  decide

end Faceting
